import Mathlib

/-!
Shallow embedding of the kdbus name registry, connection, bus and
message-delivery core (headers in src/names.h and src/kdbus_internal.h).
The headers declare the data structures and operation signatures; the
operation bodies are not part of the tree, so each operation below is
modelled from the specification, as noted in its doc comment.
-/

set_option maxRecDepth 4000

namespace Kdbus

/-- Connection ids are bus-unique 64-bit counters; modelled as Nat. -/
abbrev ConnId := Nat

/-- Error taxonomy of the specification (section 7). -/
inductive Err where
  | notFound
  | alreadyExists
  | invalidName
  | permissionDenied
  | nameInUse
  | notOwner
  | connectionGone
  | wouldBlock
  | timeout
  | outOfResources
deriving DecidableEq, Repr

deriving instance DecidableEq for Except

/- ### Name syntax (spec section 6, kdbus_name_is_valid in src/names.h) -/

/-- Characters allowed inside a name segment: ASCII alphanumerics and
underscore. -/
def isNameChar (c : Char) : Bool :=
  c.isAlpha || c.isDigit || c = '_'

/-- Modelled from the spec: the body of kdbus_name_is_valid is not in the
tree (src/names.h only declares it).  Single left-to-right scan in the
style of the C original: `atStart` records whether the scanner sits at the
beginning of a segment, `dots` counts the separators seen so far.  A dot
at segment start (empty segment) rejects, a digit at segment start
rejects, any character outside the segment alphabet rejects; at the end
the last segment must be non-empty and at least one dot must have been
seen (minimum two segments). -/
def scanName : List Char → Bool → Nat → Bool
  | [], atStart, dots => !atStart && decide (0 < dots)
  | c :: cs, atStart, dots =>
    if c = '.' then
      if atStart then false else scanName cs true (dots + 1)
    else if isNameChar c then
      if c.isDigit && atStart then false else scanName cs false dots
    else false

/-- Modelled from the spec: kdbus_name_is_valid (declared in src/names.h,
body absent), the syntax check run before any registry mutation. -/
def kdbus_name_is_valid (s : String) : Bool :=
  scanName s.data true 0

/-- Dot-separated segments of a character list.  Always non-empty: the
empty input has the single empty segment. -/
def splitDots : List Char → List (List Char)
  | [] => [[]]
  | c :: cs =>
    if c = '.' then [] :: splitDots cs
    else (c :: (splitDots cs).headI) :: (splitDots cs).tail

/-- A well-formed segment: non-empty, only ASCII alphanumerics or
underscore, and not starting with a digit. -/
def segGood (seg : List Char) : Bool :=
  !seg.isEmpty && seg.all isNameChar && !seg.headI.isDigit

/-- Declarative reading of the name-syntax rule of spec section 6:
non-empty, at least two dot-separated segments, every segment well
formed. -/
def nameValidSpec (cs : List Char) : Bool :=
  !cs.isEmpty && (splitDots cs).all segGood && decide (2 ≤ (splitDots cs).length)

theorem splitDots_ne_nil (cs : List Char) : splitDots cs ≠ [] := by
  cases cs with
  | nil => simp [splitDots]
  | cons c cs =>
    unfold splitDots
    split <;> simp

theorem splitDots_length_pos (cs : List Char) : 0 < (splitDots cs).length := by
  cases h : splitDots cs with
  | nil => exact absurd h (splitDots_ne_nil cs)
  | cons a l => simp

/-- Core induction: the scanner agrees with the segment-wise declarative
characterisation, in both scanner modes. -/
theorem scanName_eq_spec (cs : List Char) : ∀ d : Nat,
    (scanName cs true d =
      ((splitDots cs).all segGood && decide (2 ≤ d + (splitDots cs).length))) ∧
    (scanName cs false d =
      ((splitDots cs).headI.all isNameChar && (splitDots cs).tail.all segGood &&
        decide (2 ≤ d + (splitDots cs).length))) := by
  induction cs with
  | nil =>
    intro d
    constructor
    · simp [scanName, splitDots, segGood]
    · simp [scanName, splitDots]
      omega
  | cons c cs ih =>
    intro d
    by_cases hdot : c = '.'
    · subst hdot
      constructor
      · simp [scanName, splitDots, segGood]
      · have hA := (ih (d + 1)).1
        have h1 : scanName ('.' :: cs) false d = scanName cs true (d + 1) := by
          simp [scanName]
        have h2 : splitDots ('.' :: cs) = [] :: splitDots cs := by
          simp [splitDots]
        rw [h1, h2, hA]
        have h3 : d + 1 + (splitDots cs).length = d + ((splitDots cs).length + 1) := by
          omega
        simp [h3]
    · have hchar : decide (c = '.') = false := by simp [hdot]
      by_cases hn : isNameChar c = true
      · obtain ⟨s0, rest, hsplit⟩ :
            ∃ s0 rest, splitDots cs = s0 :: rest := by
          cases h : splitDots cs with
          | nil => exact absurd h (splitDots_ne_nil cs)
          | cons a l => exact ⟨a, l, rfl⟩
        have hB := (ih d).2
        have hsplit2 : splitDots (c :: cs) = (c :: s0) :: rest := by
          unfold splitDots
          rw [if_neg hdot, hsplit]
          rfl
        by_cases hd : c.isDigit = true
        · constructor
          · have : scanName (c :: cs) true d = false := by
              simp [scanName, hdot, hn, hd]
            rw [this, hsplit2]
            simp [segGood, hd]
          · have : scanName (c :: cs) false d = scanName cs false d := by
              simp [scanName, hdot, hn, hd]
            rw [this, hB, hsplit, hsplit2]
            simp [List.all_cons, isNameChar, hd]
        · constructor
          · have : scanName (c :: cs) true d = scanName cs false d := by
              simp [scanName, hdot, hn, hd]
            rw [this, hB, hsplit, hsplit2]
            simp only [List.all_cons, List.headI, List.tail]
            have hsd : c.isDigit = false := by simpa using hd
            simp [segGood, hn, hsd, Bool.and_assoc, Bool.and_comm, Bool.and_left_comm]
          · have : scanName (c :: cs) false d = scanName cs false d := by
              simp [scanName, hdot, hn, hd]
            rw [this, hB, hsplit, hsplit2]
            simp [List.all_cons, hn]
      · have hnf : isNameChar c = false := by simpa using hn
        obtain ⟨s0, rest, hsplit⟩ :
            ∃ s0 rest, splitDots cs = s0 :: rest := by
          cases h : splitDots cs with
          | nil => exact absurd h (splitDots_ne_nil cs)
          | cons a l => exact ⟨a, l, rfl⟩
        have hsplit2 : splitDots (c :: cs) = (c :: s0) :: rest := by
          unfold splitDots
          rw [if_neg hdot, hsplit]
          rfl
        constructor
        · have : scanName (c :: cs) true d = false := by
            simp [scanName, hdot, hnf]
          rw [this, hsplit2]
          simp [segGood, List.all_cons, hnf]
        · have : scanName (c :: cs) false d = false := by
            simp [scanName, hdot, hnf]
          rw [this, hsplit2]
          simp [List.all_cons, hnf]

/-- C2: the name-validity predicate accepts a string exactly when it is
non-empty, splits into at least two dot-separated segments, and every
segment is non-empty, consists only of ASCII alphanumerics or underscore,
and does not start with a digit. -/
theorem kdbus_name_is_valid_correct (s : String) :
    kdbus_name_is_valid s = nameValidSpec s.data := by
  cases h : s.data with
  | nil => simp [kdbus_name_is_valid, nameValidSpec, h, scanName, splitDots, segGood]
  | cons c cs =>
    have hiff := (scanName_eq_spec (c :: cs) 0).1
    rw [kdbus_name_is_valid, h, hiff]
    simp [nameValidSpec]

/- ### Name registry (src/names.h, spec section 4.1)

The structures mirror struct kdbus_name_entry of src/names.h (name,
flags, queue_list, conn, starter) and the registry-relevant fields of
struct kdbus_conn of src/kdbus_internal.h (id, active, starter, msg_list,
names_list, names_queue_list).  Non-owning pointers become plain
connection ids, list_head chains become lists. -/

/-- Flags of a name-acquisition request (spec: allow-replacement,
queue-if-taken, do-not-queue). -/
structure NameFlags where
  allowReplacement : Bool
  doNotQueue : Bool
deriving DecidableEq, Repr

/-- Message envelope, mirroring struct kdbus_kmsg of src/kdbus_internal.h:
a reply deadline and an opaque payload (the kdbus_msg body is handed
through unexamined, modelled as a bare id). -/
structure kdbus_kmsg where
  deadline : Option Nat
  payload : Nat
deriving DecidableEq, Repr

/-- Name-registry entry, mirroring struct kdbus_name_entry of
src/names.h: name, flags, FIFO queue of waiting connections, owning
connection and optional starter connection as non-owning ids. -/
structure kdbus_name_entry where
  name : String
  flags : NameFlags
  queue_list : List ConnId
  conn : Option ConnId
  starter : Option ConnId
deriving DecidableEq, Repr

/-- Connection, mirroring the registry- and queue-relevant fields of
struct kdbus_conn of src/kdbus_internal.h. -/
structure Conn where
  id : ConnId
  active : Bool
  starter : Bool
  msg_list : List kdbus_kmsg
  names_list : List String
  names_queue_list : List String
deriving DecidableEq, Repr

/-- Registry state of one bus: the entry table together with the
connections attached to the bus (whose names_list / names_queue_list
mirror the entries, as in the C code's doubly-linked chains). -/
structure RegState where
  entries : List kdbus_name_entry
  conns : List Conn
deriving DecidableEq, Repr

/-- Notification emitted by registry operations (spec section 4.4). -/
inductive Notif where
  | ownerChanged (name : String) (oldOwner newOwner : Option ConnId)
deriving DecidableEq, Repr

/-- Successful outcomes of name acquisition. -/
inductive AcqOk where
  | acquired
  | inQueue
  | alreadyOwner
deriving DecidableEq, Repr

/-- Lookup of a name in the entry table (kdbus_name_lookup of
src/names.h; hash-table traversal modelled as first match in the list). -/
def kdbus_name_lookup : List kdbus_name_entry → String → Option kdbus_name_entry
  | [], _ => none
  | e :: es, n => if e.name = n then some e else kdbus_name_lookup es n

/-- Apply a function to the connection with the given id (no-op when the
id is not attached). -/
def updConn (cs : List Conn) (cid : ConnId) (f : Conn → Conn) : List Conn :=
  cs.map fun c => if c.id = cid then f c else c

/-- Apply a function to the entry with the given name (no-op when there
is no such entry). -/
def setEntry (es : List kdbus_name_entry) (n : String)
    (g : kdbus_name_entry → kdbus_name_entry) : List kdbus_name_entry :=
  es.map fun e => if e.name = n then g e else e

/-- Remove a string from a string list. -/
def removeStr (l : List String) (n : String) : List String :=
  l.filter fun m => decide (m ≠ n)

/-- Remove a connection id from a queue. -/
def removeCid (l : List ConnId) (cid : ConnId) : List ConnId :=
  l.filter fun x => decide (x ≠ cid)

/-- Modelled from the spec: kdbus_cmd_name_acquire (declared in
src/names.h, body absent).  Rejects invalid names before any mutation;
grants an unowned name immediately; on an owned name either replaces the
owner (allow-replacement plus privilege), fails with nameInUse
(do-not-queue), or appends the requester to the FIFO waiting queue.
Returns the result, the new state and the emitted notifications. -/
def kdbus_cmd_name_acquire (s : RegState) (cid : ConnId) (n : String)
    (fl : NameFlags) (priv : Bool) : Except Err AcqOk × RegState × List Notif :=
  if kdbus_name_is_valid n = false then (.error .invalidName, s, [])
  else
    match kdbus_name_lookup s.entries n with
    | none =>
      (.ok .acquired,
       { entries := ⟨n, fl, [], some cid, none⟩ :: s.entries,
         conns := updConn s.conns cid fun c =>
           { c with names_list := n :: c.names_list } },
       [.ownerChanged n none (some cid)])
    | some e =>
      match e.conn with
      | none =>
        (.ok .acquired,
         { entries := setEntry s.entries n fun e' =>
             { e' with conn := some cid, flags := fl,
                       queue_list := removeCid e'.queue_list cid },
           conns := updConn s.conns cid fun c =>
             { c with names_list := n :: c.names_list,
                      names_queue_list := removeStr c.names_queue_list n } },
         [.ownerChanged n none (some cid)])
      | some owner =>
        if owner = cid then (.ok .alreadyOwner, s, [])
        else if fl.allowReplacement && priv then
          (.ok .acquired,
           { entries := setEntry s.entries n fun e' =>
               { e' with conn := some cid, flags := fl,
                         queue_list := removeCid e'.queue_list cid },
             conns := updConn
               (updConn s.conns owner fun c =>
                 { c with names_list := removeStr c.names_list n })
               cid fun c =>
                 { c with names_list := n :: c.names_list,
                          names_queue_list := removeStr c.names_queue_list n } },
           [.ownerChanged n (some owner) (some cid)])
        else if fl.doNotQueue then (.error .nameInUse, s, [])
        else if cid ∈ e.queue_list then (.ok .inQueue, s, [])
        else
          (.ok .inQueue,
           { entries := setEntry s.entries n fun e' =>
               { e' with queue_list := e'.queue_list ++ [cid] },
             conns := updConn s.conns cid fun c =>
               { c with names_queue_list := n :: c.names_queue_list } },
           [])

/-- Modelled from the spec: kdbus_cmd_name_release (declared in
src/names.h, body absent).  Fails with notOwner when the caller does not
hold the name; otherwise transfers ownership to the head of the FIFO
waiting queue when non-empty and deletes the entry when the queue is
empty, emitting one owner-changed notification either way. -/
def kdbus_cmd_name_release (s : RegState) (cid : ConnId) (n : String) :
    Except Err Unit × RegState × List Notif :=
  match kdbus_name_lookup s.entries n with
  | none => (.error .notOwner, s, [])
  | some e =>
    if e.conn = some cid then
      match e.queue_list with
      | [] =>
        (.ok (),
         { entries := s.entries.filter fun e' => decide (e'.name ≠ n),
           conns := updConn s.conns cid fun c =>
             { c with names_list := removeStr c.names_list n } },
         [.ownerChanged n (some cid) none])
      | w :: rest =>
        (.ok (),
         { entries := setEntry s.entries n fun e' =>
             { e' with conn := some w, queue_list := rest },
           conns := updConn
             (updConn s.conns cid fun c =>
               { c with names_list := removeStr c.names_list n })
             w fun c =>
               { c with names_list := n :: c.names_list,
                        names_queue_list := removeStr c.names_queue_list n } },
         [.ownerChanged n (some cid) (some w)])
    else (.error .notOwner, s, [])

/-- Names currently owned by a connection, read off the entry table. -/
def ownedNamesOf (s : RegState) (cid : ConnId) : List String :=
  (s.entries.filter fun e => decide (e.conn = some cid)).map fun e => e.name

/-- Release a list of names one after the other, collecting the emitted
notifications (the release loop of the disconnect path). -/
def releaseAll (cid : ConnId) : RegState → List String → RegState × List Notif
  | s, [] => (s, [])
  | s, n :: ns =>
    let r := kdbus_cmd_name_release s cid n
    let rec2 := releaseAll cid r.2.1 ns
    (rec2.1, r.2.2 ++ rec2.2)

/-- Remove a connection from every waiting queue and clear its queued-name
list (the queue-purge half of the disconnect path). -/
def purgeQueues (s : RegState) (cid : ConnId) : RegState :=
  { entries := s.entries.map fun e =>
      { e with queue_list := removeCid e.queue_list cid },
    conns := updConn s.conns cid fun c => { c with names_queue_list := [] } }

/-- Modelled from the spec: kdbus_name_remove_by_conn (declared in
src/names.h, body absent).  Called on disconnect: releases every name the
connection owns, cascading ownership transfer as in release, then removes
the connection from every waiting queue it occupies. -/
def kdbus_name_remove_by_conn (s : RegState) (cid : ConnId) :
    RegState × List Notif :=
  let r := releaseAll cid s (ownedNamesOf s cid)
  (purgeQueues r.1 cid, r.2)

/-- Registry-facing operations of one bus, used to describe the reachable
states of the name registry. -/
inductive RegOp where
  | connect (cid : ConnId)
  | acquire (cid : ConnId) (n : String) (fl : NameFlags) (priv : Bool)
  | release (cid : ConnId) (n : String)
  | disconnect (cid : ConnId)
deriving DecidableEq, Repr

/-- Attachment of a connection id to the bus. -/
def attached (s : RegState) (cid : ConnId) : Prop :=
  cid ∈ s.conns.map fun c => c.id

instance (s : RegState) (cid : ConnId) : Decidable (attached s cid) := by
  unfold attached; infer_instance

/-- Apply one registry operation to the state.  Commands reach the
registry through an attached connection, so acquire, release and
disconnect by an unattached id are no-ops. -/
def applyOp (s : RegState) : RegOp → RegState
  | .connect cid =>
    if attached s cid then s
    else { s with conns := ⟨cid, false, false, [], [], []⟩ :: s.conns }
  | .acquire cid n fl priv =>
    if attached s cid then (kdbus_cmd_name_acquire s cid n fl priv).2.1 else s
  | .release cid n =>
    if attached s cid then (kdbus_cmd_name_release s cid n).2.1 else s
  | .disconnect cid =>
    if attached s cid then (kdbus_name_remove_by_conn s cid).1 else s

/-- Empty registry of a fresh bus. -/
def initState : RegState := ⟨[], []⟩

/-- Run a sequence of registry operations from a state. -/
def runOps (s : RegState) (ops : List RegOp) : RegState :=
  ops.foldl applyOp s

/-- Ownership of a name, read off the entry table. -/
def ownsName (s : RegState) (cid : ConnId) (n : String) : Prop :=
  ∃ e ∈ s.entries, e.name = n ∧ e.conn = some cid

instance (s : RegState) (cid : ConnId) (n : String) :
    Decidable (ownsName s cid n) := by
  unfold ownsName; infer_instance

/-- Well-formedness invariant of a registry state: unique entry names and
connection ids, duplicate-free queues, an owner never waits in its own
queue, a connection's names_list mirrors the entries' owner fields, its
names_queue_list mirrors the entries' queues, and both lists only mention
names present in the table. -/
def Inv (s : RegState) : Prop :=
  ((s.entries.map fun e => e.name).Nodup) ∧
  ((s.conns.map fun c => c.id).Nodup) ∧
  (∀ e ∈ s.entries, e.queue_list.Nodup) ∧
  (∀ e ∈ s.entries, ∀ x, e.conn = some x → x ∉ e.queue_list) ∧
  (∀ e ∈ s.entries, ∀ c ∈ s.conns, (e.conn = some c.id ↔ e.name ∈ c.names_list)) ∧
  (∀ e ∈ s.entries, ∀ c ∈ s.conns, (c.id ∈ e.queue_list ↔ e.name ∈ c.names_queue_list)) ∧
  (∀ c ∈ s.conns, ∀ n ∈ c.names_list, ∃ e ∈ s.entries, e.name = n) ∧
  (∀ c ∈ s.conns, ∀ n ∈ c.names_queue_list, ∃ e ∈ s.entries, e.name = n) ∧
  (∀ e ∈ s.entries, ∀ x, e.conn = some x → attached s x) ∧
  (∀ e ∈ s.entries, ∀ x ∈ e.queue_list, attached s x)

instance (s : RegState) : Decidable (Inv s) := by
  unfold Inv; infer_instance

/- ### Toolkit lemmas about the registry primitives -/

theorem lookup_mem {es : List kdbus_name_entry} {n : String} {e : kdbus_name_entry}
    (h : kdbus_name_lookup es n = some e) : e ∈ es ∧ e.name = n := by
  induction es with
  | nil => simp [kdbus_name_lookup] at h
  | cons a l ih =>
    rw [kdbus_name_lookup] at h
    by_cases ha : a.name = n
    · rw [if_pos ha] at h
      injection h with h2
      subst h2
      exact ⟨List.mem_cons_self _ _, ha⟩
    · rw [if_neg ha] at h
      obtain ⟨h1, h2⟩ := ih h
      exact ⟨List.mem_cons_of_mem a h1, h2⟩

theorem lookup_eq_none_iff {es : List kdbus_name_entry} {n : String} :
    kdbus_name_lookup es n = none ↔ ∀ e ∈ es, e.name ≠ n := by
  induction es with
  | nil => simp [kdbus_name_lookup]
  | cons a l ih =>
    rw [kdbus_name_lookup]
    by_cases ha : a.name = n
    · simp [ha]
    · rw [if_neg ha]
      simp only [List.mem_cons]
      constructor
      · intro h e he
        rcases he with rfl | he
        · exact ha
        · exact ih.1 h e he
      · intro h
        exact ih.2 fun e he => h e (Or.inr he)

theorem lookup_of_mem {es : List kdbus_name_entry}
    (hnd : (es.map fun e => e.name).Nodup) {e : kdbus_name_entry} (he : e ∈ es) :
    kdbus_name_lookup es e.name = some e := by
  induction es with
  | nil => cases he
  | cons a l ih =>
    rw [kdbus_name_lookup]
    rcases List.mem_cons.1 he with rfl | hm
    · rw [if_pos rfl]
    · have hnd' := hnd
      simp only [List.map_cons, List.nodup_cons] at hnd'
      obtain ⟨hni, hndl⟩ := hnd'
      by_cases ha : a.name = e.name
      · exfalso
        have hmem : e.name ∈ l.map fun x => x.name := List.mem_map_of_mem _ hm
        rw [ha] at hni
        exact hni hmem
      · rw [if_neg ha]
        exact ih hndl hm

theorem name_unique {es : List kdbus_name_entry}
    (hnd : (es.map fun e => e.name).Nodup) {e₁ e₂ : kdbus_name_entry}
    (h1 : e₁ ∈ es) (h2 : e₂ ∈ es) (hn : e₁.name = e₂.name) : e₁ = e₂ :=
  List.inj_on_of_nodup_map hnd h1 h2 hn

theorem mem_removeStr {l : List String} {n m : String} :
    m ∈ removeStr l n ↔ m ∈ l ∧ m ≠ n := by
  simp [removeStr, List.mem_filter]

theorem mem_removeCid {l : List ConnId} {cid x : ConnId} :
    x ∈ removeCid l cid ↔ x ∈ l ∧ x ≠ cid := by
  simp [removeCid, List.mem_filter]

theorem removeCid_nodup {l : List ConnId} {cid : ConnId} (h : l.Nodup) :
    (removeCid l cid).Nodup := h.filter _

theorem not_mem_removeCid_self {l : List ConnId} {cid : ConnId} :
    cid ∉ removeCid l cid := by
  intro h
  exact (mem_removeCid.1 h).2 rfl

theorem mem_setEntry {es : List kdbus_name_entry} {n : String}
    {g : kdbus_name_entry → kdbus_name_entry} {e' : kdbus_name_entry}
    (h : e' ∈ setEntry es n g) :
    ∃ e ∈ es, (e.name = n ∧ g e = e') ∨ (e.name ≠ n ∧ e = e') := by
  unfold setEntry at h
  obtain ⟨e, he, heq⟩ := List.mem_map.1 h
  refine ⟨e, he, ?_⟩
  by_cases hn : e.name = n
  · exact Or.inl ⟨hn, by rw [← heq, if_pos hn]⟩
  · exact Or.inr ⟨hn, by rw [← heq, if_neg hn]⟩

theorem setEntry_mem_of_mem {es : List kdbus_name_entry} {n : String}
    {g : kdbus_name_entry → kdbus_name_entry} {e : kdbus_name_entry} (he : e ∈ es) :
    (if e.name = n then g e else e) ∈ setEntry es n g :=
  List.mem_map_of_mem _ he

theorem setEntry_map_name {es : List kdbus_name_entry} {n : String}
    {g : kdbus_name_entry → kdbus_name_entry} (hg : ∀ e, (g e).name = e.name) :
    ((setEntry es n g).map fun e => e.name) = es.map fun e => e.name := by
  induction es with
  | nil => rfl
  | cons a l ih =>
    unfold setEntry at ih ⊢
    simp only [List.map_cons]
    rw [ih]
    by_cases ha : a.name = n
    · rw [if_pos ha, hg a]
    · rw [if_neg ha]

theorem mem_updConn {cs : List Conn} {cid : ConnId} {f : Conn → Conn} {c' : Conn}
    (h : c' ∈ updConn cs cid f) :
    ∃ c ∈ cs, (c.id = cid ∧ f c = c') ∨ (c.id ≠ cid ∧ c = c') := by
  unfold updConn at h
  obtain ⟨c, hc, heq⟩ := List.mem_map.1 h
  refine ⟨c, hc, ?_⟩
  by_cases hid : c.id = cid
  · exact Or.inl ⟨hid, by rw [if_pos hid] at heq; exact heq⟩
  · exact Or.inr ⟨hid, by rw [if_neg hid] at heq; exact heq⟩

theorem updConn_map_id {cs : List Conn} {cid : ConnId} {f : Conn → Conn}
    (hf : ∀ c, (f c).id = c.id) :
    ((updConn cs cid f).map fun c => c.id) = cs.map fun c => c.id := by
  induction cs with
  | nil => rfl
  | cons a l ih =>
    unfold updConn at ih ⊢
    simp only [List.map_cons]
    rw [ih]
    by_cases ha : a.id = cid
    · rw [if_pos ha, hf a]
    · rw [if_neg ha]

theorem updConn_updConn {cs : List Conn} {o cid : ConnId} {f₁ f₂ : Conn → Conn}
    (hne : o ≠ cid) (hf₁ : ∀ c, (f₁ c).id = c.id) :
    updConn (updConn cs o f₁) cid f₂ =
      cs.map fun c => if c.id = o then f₁ c else if c.id = cid then f₂ c else c := by
  unfold updConn
  rw [List.map_map]
  apply List.map_congr_left
  intro c _
  by_cases ho : c.id = o
  · have h2 : (f₁ c).id ≠ cid := by rw [hf₁ c, ho]; exact hne
    simp [Function.comp, ho, h2]
  · simp [Function.comp, ho]

/- ### Branch equations for acquire and release -/

theorem acquire_invalid_eq {s : RegState} {cid : ConnId} {n : String}
    {fl : NameFlags} {priv : Bool} (hv : kdbus_name_is_valid n = false) :
    kdbus_cmd_name_acquire s cid n fl priv = (.error .invalidName, s, []) := by
  unfold kdbus_cmd_name_acquire
  rw [if_pos hv]

theorem acquire_fresh_eq {s : RegState} {cid : ConnId} {n : String}
    {fl : NameFlags} {priv : Bool} (hv : kdbus_name_is_valid n = true)
    (hl : kdbus_name_lookup s.entries n = none) :
    kdbus_cmd_name_acquire s cid n fl priv =
      (.ok .acquired,
       ⟨⟨n, fl, [], some cid, none⟩ :: s.entries,
        updConn s.conns cid fun c => { c with names_list := n :: c.names_list }⟩,
       [.ownerChanged n none (some cid)]) := by
  unfold kdbus_cmd_name_acquire
  rw [if_neg (by simp [hv]), hl]

theorem acquire_unowned_eq {s : RegState} {cid : ConnId} {n : String}
    {fl : NameFlags} {priv : Bool} {e : kdbus_name_entry}
    (hv : kdbus_name_is_valid n = true)
    (hl : kdbus_name_lookup s.entries n = some e) (he : e.conn = none) :
    kdbus_cmd_name_acquire s cid n fl priv =
      (.ok .acquired,
       ⟨setEntry s.entries n fun e' =>
          { e' with conn := some cid, flags := fl,
                    queue_list := removeCid e'.queue_list cid },
        updConn s.conns cid fun c =>
          { c with names_list := n :: c.names_list,
                   names_queue_list := removeStr c.names_queue_list n }⟩,
       [.ownerChanged n none (some cid)]) := by
  unfold kdbus_cmd_name_acquire
  rw [if_neg (by simp [hv]), hl]
  simp only [he]

theorem acquire_alreadyOwner_eq {s : RegState} {cid : ConnId} {n : String}
    {fl : NameFlags} {priv : Bool} {e : kdbus_name_entry}
    (hv : kdbus_name_is_valid n = true)
    (hl : kdbus_name_lookup s.entries n = some e) (he : e.conn = some cid) :
    kdbus_cmd_name_acquire s cid n fl priv = (.ok .alreadyOwner, s, []) := by
  unfold kdbus_cmd_name_acquire
  rw [if_neg (by simp [hv]), hl]
  simp only [he]
  simp

theorem acquire_replace_eq {s : RegState} {cid owner : ConnId} {n : String}
    {fl : NameFlags} {priv : Bool} {e : kdbus_name_entry}
    (hv : kdbus_name_is_valid n = true)
    (hl : kdbus_name_lookup s.entries n = some e) (he : e.conn = some owner)
    (hno : owner ≠ cid) (hrep : (fl.allowReplacement && priv) = true) :
    kdbus_cmd_name_acquire s cid n fl priv =
      (.ok .acquired,
       ⟨setEntry s.entries n fun e' =>
          { e' with conn := some cid, flags := fl,
                    queue_list := removeCid e'.queue_list cid },
        updConn
          (updConn s.conns owner fun c =>
            { c with names_list := removeStr c.names_list n })
          cid fun c =>
            { c with names_list := n :: c.names_list,
                     names_queue_list := removeStr c.names_queue_list n }⟩,
       [.ownerChanged n (some owner) (some cid)]) := by
  unfold kdbus_cmd_name_acquire
  rw [if_neg (by simp [hv]), hl]
  simp only [he]
  rw [if_neg hno, if_pos hrep]

theorem acquire_inuse_eq {s : RegState} {cid owner : ConnId} {n : String}
    {fl : NameFlags} {priv : Bool} {e : kdbus_name_entry}
    (hv : kdbus_name_is_valid n = true)
    (hl : kdbus_name_lookup s.entries n = some e) (he : e.conn = some owner)
    (hno : owner ≠ cid) (hrep : (fl.allowReplacement && priv) = false)
    (hdq : fl.doNotQueue = true) :
    kdbus_cmd_name_acquire s cid n fl priv = (.error .nameInUse, s, []) := by
  unfold kdbus_cmd_name_acquire
  rw [if_neg (by simp [hv]), hl]
  simp only [he]
  rw [if_neg hno, if_neg (by simp [hrep]), if_pos hdq]

theorem acquire_requeue_eq {s : RegState} {cid owner : ConnId} {n : String}
    {fl : NameFlags} {priv : Bool} {e : kdbus_name_entry}
    (hv : kdbus_name_is_valid n = true)
    (hl : kdbus_name_lookup s.entries n = some e) (he : e.conn = some owner)
    (hno : owner ≠ cid) (hrep : (fl.allowReplacement && priv) = false)
    (hdq : fl.doNotQueue = false) (hq : cid ∈ e.queue_list) :
    kdbus_cmd_name_acquire s cid n fl priv = (.ok .inQueue, s, []) := by
  unfold kdbus_cmd_name_acquire
  rw [if_neg (by simp [hv]), hl]
  simp only [he]
  rw [if_neg hno, if_neg (by simp [hrep]), if_neg (by simp [hdq]), if_pos hq]

theorem acquire_enqueue_eq {s : RegState} {cid owner : ConnId} {n : String}
    {fl : NameFlags} {priv : Bool} {e : kdbus_name_entry}
    (hv : kdbus_name_is_valid n = true)
    (hl : kdbus_name_lookup s.entries n = some e) (he : e.conn = some owner)
    (hno : owner ≠ cid) (hrep : (fl.allowReplacement && priv) = false)
    (hdq : fl.doNotQueue = false) (hq : cid ∉ e.queue_list) :
    kdbus_cmd_name_acquire s cid n fl priv =
      (.ok .inQueue,
       ⟨setEntry s.entries n fun e' =>
          { e' with queue_list := e'.queue_list ++ [cid] },
        updConn s.conns cid fun c =>
          { c with names_queue_list := n :: c.names_queue_list }⟩,
       []) := by
  unfold kdbus_cmd_name_acquire
  rw [if_neg (by simp [hv]), hl]
  simp only [he]
  rw [if_neg hno, if_neg (by simp [hrep]), if_neg (by simp [hdq]), if_neg hq]

theorem release_noentry_eq {s : RegState} {cid : ConnId} {n : String}
    (hl : kdbus_name_lookup s.entries n = none) :
    kdbus_cmd_name_release s cid n = (.error .notOwner, s, []) := by
  unfold kdbus_cmd_name_release
  rw [hl]

theorem release_notowner_eq {s : RegState} {cid : ConnId} {n : String}
    {e : kdbus_name_entry} (hl : kdbus_name_lookup s.entries n = some e)
    (he : e.conn ≠ some cid) :
    kdbus_cmd_name_release s cid n = (.error .notOwner, s, []) := by
  unfold kdbus_cmd_name_release
  rw [hl]
  simp only [if_neg he]

theorem release_delete_eq {s : RegState} {cid : ConnId} {n : String}
    {e : kdbus_name_entry} (hl : kdbus_name_lookup s.entries n = some e)
    (he : e.conn = some cid) (hq : e.queue_list = []) :
    kdbus_cmd_name_release s cid n =
      (.ok (),
       ⟨s.entries.filter fun e' => decide (e'.name ≠ n),
        updConn s.conns cid fun c =>
          { c with names_list := removeStr c.names_list n }⟩,
       [.ownerChanged n (some cid) none]) := by
  unfold kdbus_cmd_name_release
  rw [hl]
  simp only [if_pos he, hq]

theorem release_promote_eq {s : RegState} {cid : ConnId} {n : String}
    {e : kdbus_name_entry} {w : ConnId} {rest : List ConnId}
    (hl : kdbus_name_lookup s.entries n = some e)
    (he : e.conn = some cid) (hq : e.queue_list = w :: rest) :
    kdbus_cmd_name_release s cid n =
      (.ok (),
       ⟨setEntry s.entries n fun e' =>
          { e' with conn := some w, queue_list := rest },
        updConn
          (updConn s.conns cid fun c =>
            { c with names_list := removeStr c.names_list n })
          w fun c =>
            { c with names_list := n :: c.names_list,
                     names_queue_list := removeStr c.names_queue_list n }⟩,
       [.ownerChanged n (some cid) (some w)]) := by
  unfold kdbus_cmd_name_release
  rw [hl]
  simp only [if_pos he, hq]

theorem attached_updConn {es' : List kdbus_name_entry} {s : RegState} {cid x : ConnId}
    {f : Conn → Conn} (hf : ∀ c, (f c).id = c.id) :
    attached ⟨es', updConn s.conns cid f⟩ x ↔ attached s x := by
  unfold attached
  rw [show (RegState.mk es' (updConn s.conns cid f)).conns = updConn s.conns cid f from rfl]
  rw [updConn_map_id hf]

theorem attached_entries_irrel {es' : List kdbus_name_entry} {s : RegState} {x : ConnId} :
    attached ⟨es', s.conns⟩ x ↔ attached s x := Iff.rfl

/- ### Invariant preservation, branch by branch -/

theorem inv_fresh {s : RegState} {cid : ConnId} {n : String} {fl : NameFlags}
    (h : Inv s) (hatt : attached s cid) (hfree : ∀ e ∈ s.entries, e.name ≠ n) :
    Inv ⟨⟨n, fl, [], some cid, none⟩ :: s.entries,
         updConn s.conns cid fun c => { c with names_list := n :: c.names_list }⟩ := by
  obtain ⟨h1, h2, h3, h4, h5, h6, h7, h8, h9, h10⟩ := h
  have hfid : ∀ c : Conn,
      (({ c with names_list := n :: c.names_list } : Conn)).id = c.id := fun c => rfl
  refine ⟨?_, ?_, ?_, ?_, ?_, ?_, ?_, ?_, ?_, ?_⟩
  · simp only [List.map_cons, List.nodup_cons]
    refine ⟨?_, h1⟩
    intro hmem
    obtain ⟨e, he, hname⟩ := List.mem_map.1 hmem
    exact hfree e he hname
  · rw [show (RegState.mk _ (updConn s.conns cid _)).conns = updConn s.conns cid _ from rfl]
    rw [updConn_map_id hfid]
    exact h2
  · intro e he
    rcases List.mem_cons.1 he with rfl | he
    · exact List.nodup_nil
    · exact h3 e he
  · intro e he x hx
    rcases List.mem_cons.1 he with rfl | he
    · simp
    · exact h4 e he x hx
  · intro e he c' hc'
    obtain ⟨c, hc, hcase⟩ := mem_updConn hc'
    rcases List.mem_cons.1 he with rfl | he
    · rcases hcase with ⟨hid, rfl⟩ | ⟨hid, rfl⟩
      · simp [hid]
      · simp only [Option.some.injEq]
        constructor
        · intro hcid
          exact absurd hcid.symm hid
        · intro hmem
          obtain ⟨e', he', hname⟩ := h7 c hc _ hmem
          exact absurd hname (hfree e' he')
    · have hne : e.name ≠ n := hfree e he
      rcases hcase with ⟨hid, rfl⟩ | ⟨hid, rfl⟩
      · rw [show ({ c with names_list := n :: c.names_list } : Conn).id = c.id from rfl]
        rw [show ({ c with names_list := n :: c.names_list } : Conn).names_list
              = n :: c.names_list from rfl]
        rw [List.mem_cons]
        constructor
        · intro hcid
          exact Or.inr ((h5 e he c hc).1 hcid)
        · intro hmem
          rcases hmem with hm | hm
          · exact absurd hm hne
          · exact (h5 e he c hc).2 hm
      · exact h5 e he c hc
  · intro e he c' hc'
    obtain ⟨c, hc, hcase⟩ := mem_updConn hc'
    rcases List.mem_cons.1 he with rfl | he
    · have hq : ∀ cc : Conn, cc ∈ s.conns → ¬ n ∈ cc.names_queue_list := by
        intro cc hcc hmem
        obtain ⟨e', he', hname⟩ := h8 cc hcc _ hmem
        exact absurd hname (hfree e' he')
      rcases hcase with ⟨hid, rfl⟩ | ⟨hid, rfl⟩
      · simp only [List.not_mem_nil]
        constructor
        · intro hf
          exact absurd hf (by simp)
        · intro hmem
          exact absurd hmem (hq c hc)
      · simp only [List.not_mem_nil]
        constructor
        · intro hf
          exact absurd hf (by simp)
        · intro hmem
          exact absurd hmem (hq c hc)
    · rcases hcase with ⟨hid, rfl⟩ | ⟨hid, rfl⟩
      · exact h6 e he c hc
      · exact h6 e he c hc
  · intro c' hc' m hm
    obtain ⟨c, hc, hcase⟩ := mem_updConn hc'
    rcases hcase with ⟨hid, rfl⟩ | ⟨hid, rfl⟩
    · rw [show ({ c with names_list := n :: c.names_list } : Conn).names_list
            = n :: c.names_list from rfl] at hm
      rcases List.mem_cons.1 hm with rfl | hm
      · exact ⟨_, List.mem_cons_self _ _, rfl⟩
      · obtain ⟨e, he, hname⟩ := h7 c hc m hm
        exact ⟨e, List.mem_cons_of_mem _ he, hname⟩
    · obtain ⟨e, he, hname⟩ := h7 c hc m hm
      exact ⟨e, List.mem_cons_of_mem _ he, hname⟩
  · intro c' hc' m hm
    obtain ⟨c, hc, hcase⟩ := mem_updConn hc'
    rcases hcase with ⟨hid, rfl⟩ | ⟨hid, rfl⟩
    · obtain ⟨e, he, hname⟩ := h8 c hc m hm
      exact ⟨e, List.mem_cons_of_mem _ he, hname⟩
    · obtain ⟨e, he, hname⟩ := h8 c hc m hm
      exact ⟨e, List.mem_cons_of_mem _ he, hname⟩
  · intro e he x hx
    rw [attached_updConn hfid]
    rcases List.mem_cons.1 he with rfl | he
    · cases hx
      exact hatt
    · exact h9 e he x hx
  · intro e he x hx
    rw [attached_updConn hfid]
    rcases List.mem_cons.1 he with rfl | he
    · exact absurd hx (by simp)
    · exact h10 e he x hx

theorem setEntry_exists_name {es : List kdbus_name_entry} {n : String}
    {g : kdbus_name_entry → kdbus_name_entry} (hg : ∀ e, (g e).name = e.name)
    {m : String} :
    (∃ e ∈ setEntry es n g, e.name = m) ↔ ∃ e ∈ es, e.name = m := by
  constructor
  · intro ⟨e', he', hname⟩
    obtain ⟨e, he, hcase⟩ := mem_setEntry he'
    rcases hcase with ⟨_, heq⟩ | ⟨_, heq⟩
    · exact ⟨e, he, by rw [← hname, ← heq, hg]⟩
    · exact ⟨e, he, by rw [← hname, heq]⟩
  · intro ⟨e, he, hname⟩
    refine ⟨if e.name = n then g e else e, setEntry_mem_of_mem he, ?_⟩
    by_cases hn : e.name = n
    · rw [if_pos hn, hg, hname]
    · rw [if_neg hn, hname]

theorem mem_map3 {cs : List Conn} {o cid : ConnId} {f₁ f₂ : Conn → Conn} {c' : Conn}
    (h : c' ∈ cs.map fun c => if c.id = o then f₁ c else if c.id = cid then f₂ c else c) :
    ∃ c ∈ cs, (c.id = o ∧ f₁ c = c') ∨ (c.id ≠ o ∧ c.id = cid ∧ f₂ c = c') ∨
      (c.id ≠ o ∧ c.id ≠ cid ∧ c = c') := by
  obtain ⟨c, hc, heq⟩ := List.mem_map.1 h
  refine ⟨c, hc, ?_⟩
  by_cases ho : c.id = o
  · rw [if_pos ho] at heq
    exact Or.inl ⟨ho, heq⟩
  · rw [if_neg ho] at heq
    by_cases hcid : c.id = cid
    · rw [if_pos hcid] at heq
      exact Or.inr (Or.inl ⟨ho, hcid, heq⟩)
    · rw [if_neg hcid] at heq
      exact Or.inr (Or.inr ⟨ho, hcid, heq⟩)

theorem map_conn_id {cs : List Conn} {F : Conn → Conn} (hF : ∀ c, (F c).id = c.id) :
    ((cs.map F).map fun c => c.id) = cs.map fun c => c.id := by
  rw [List.map_map]
  apply List.map_congr_left
  intro c _
  exact hF c

theorem attached_map {es' : List kdbus_name_entry} {s : RegState} {x : ConnId}
    {F : Conn → Conn} (hF : ∀ c, (F c).id = c.id) :
    attached ⟨es', s.conns.map F⟩ x ↔ attached s x := by
  unfold attached
  rw [show (RegState.mk es' (s.conns.map F)).conns = s.conns.map F from rfl]
  rw [map_conn_id hF]

theorem inv_unowned {s : RegState} {cid : ConnId} {n : String} {fl : NameFlags}
    {e : kdbus_name_entry} (h : Inv s) (hatt : attached s cid)
    (hl : kdbus_name_lookup s.entries n = some e) (he : e.conn = none) :
    Inv ⟨setEntry s.entries n fun e' =>
           { e' with conn := some cid, flags := fl,
                     queue_list := removeCid e'.queue_list cid },
         updConn s.conns cid fun c =>
           { c with names_list := n :: c.names_list,
                    names_queue_list := removeStr c.names_queue_list n }⟩ := by
  obtain ⟨h1, h2, h3, h4, h5, h6, h7, h8, h9, h10⟩ := h
  obtain ⟨hemem, hename⟩ := lookup_mem hl
  have hgname : ∀ e' : kdbus_name_entry,
      (({ e' with conn := some cid, flags := fl,
                  queue_list := removeCid e'.queue_list cid } : kdbus_name_entry)).name
        = e'.name := fun _ => rfl
  have hfid : ∀ c : Conn,
      (({ c with names_list := n :: c.names_list,
                 names_queue_list := removeStr c.names_queue_list n } : Conn)).id = c.id :=
    fun _ => rfl
  have huniq : ∀ e₁ ∈ s.entries, e₁.name = n → e₁ = e := by
    intro e₁ he₁ hn₁
    exact name_unique h1 he₁ hemem (by rw [hn₁, hename])
  refine ⟨?_, ?_, ?_, ?_, ?_, ?_, ?_, ?_, ?_, ?_⟩
  · rw [setEntry_map_name hgname]
    exact h1
  · rw [show (RegState.mk _ (updConn s.conns cid _)).conns = updConn s.conns cid _ from rfl]
    rw [updConn_map_id hfid]
    exact h2
  · intro e' he'
    obtain ⟨e₁, he₁, hcase⟩ := mem_setEntry he'
    rcases hcase with ⟨_, rfl⟩ | ⟨_, rfl⟩
    · exact removeCid_nodup (h3 e₁ he₁)
    · exact h3 e₁ he₁
  · intro e' he' x hx
    obtain ⟨e₁, he₁, hcase⟩ := mem_setEntry he'
    rcases hcase with ⟨hn₁, rfl⟩ | ⟨hn₁, rfl⟩
    · injection hx with hx
      subst hx
      exact not_mem_removeCid_self
    · exact h4 e₁ he₁ x hx
  · intro e' he' c' hc'
    obtain ⟨e₁, he₁, hcase⟩ := mem_setEntry he'
    obtain ⟨c, hc, hcase2⟩ := mem_updConn hc'
    rcases hcase with ⟨hn₁, rfl⟩ | ⟨hn₁, rfl⟩
    · have he₁e : e₁ = e := huniq e₁ he₁ hn₁
      rcases hcase2 with ⟨hid, rfl⟩ | ⟨hid, rfl⟩
      · constructor
        · intro _
          exact hn₁ ▸ List.mem_cons_self _ _
        · intro _
          exact congrArg some hid.symm
      · constructor
        · intro hcid
          injection hcid with hcid
          exact absurd hcid.symm hid
        · intro hmem
          have hconn := (h5 e₁ he₁ c hc).2 hmem
          rw [he₁e, he] at hconn
          exact Option.noConfusion hconn
    · rcases hcase2 with ⟨hid, rfl⟩ | ⟨hid, rfl⟩
      · constructor
        · intro hcid
          exact List.mem_cons_of_mem _ ((h5 e₁ he₁ c hc).1 hcid)
        · intro hmem
          rcases List.mem_cons.1 hmem with hm | hm
          · exact absurd hm hn₁
          · exact (h5 e₁ he₁ c hc).2 hm
      · exact h5 e₁ he₁ c hc
  · intro e' he' c' hc'
    obtain ⟨e₁, he₁, hcase⟩ := mem_setEntry he'
    obtain ⟨c, hc, hcase2⟩ := mem_updConn hc'
    rcases hcase with ⟨hn₁, rfl⟩ | ⟨hn₁, rfl⟩
    · rcases hcase2 with ⟨hid, rfl⟩ | ⟨hid, rfl⟩
      · constructor
        · intro hmem
          exact absurd hid (mem_removeCid.1 hmem).2
        · intro hmem
          exact absurd hn₁ (mem_removeStr.1 hmem).2
      · constructor
        · intro hmem
          exact (h6 e₁ he₁ c hc).1 (mem_removeCid.1 hmem).1
        · intro hmem
          exact mem_removeCid.2 ⟨(h6 e₁ he₁ c hc).2 hmem, hid⟩
    · rcases hcase2 with ⟨hid, rfl⟩ | ⟨hid, rfl⟩
      · constructor
        · intro hmem
          exact mem_removeStr.2 ⟨(h6 e₁ he₁ c hc).1 hmem, hn₁⟩
        · intro hmem
          exact (h6 e₁ he₁ c hc).2 (mem_removeStr.1 hmem).1
      · exact h6 e₁ he₁ c hc
  · intro c' hc' m hm
    obtain ⟨c, hc, hcase⟩ := mem_updConn hc'
    rw [setEntry_exists_name hgname]
    rcases hcase with ⟨hid, rfl⟩ | ⟨hid, rfl⟩
    · rcases List.mem_cons.1 hm with rfl | hm2
      · exact ⟨e, hemem, hename⟩
      · exact h7 c hc m hm2
    · exact h7 c hc m hm
  · intro c' hc' m hm
    obtain ⟨c, hc, hcase⟩ := mem_updConn hc'
    rw [setEntry_exists_name hgname]
    rcases hcase with ⟨hid, rfl⟩ | ⟨hid, rfl⟩
    · exact h8 c hc m (mem_removeStr.1 hm).1
    · exact h8 c hc m hm
  · intro e' he' x hx
    rw [attached_updConn hfid]
    obtain ⟨e₁, he₁, hcase⟩ := mem_setEntry he'
    rcases hcase with ⟨hn₁, rfl⟩ | ⟨hn₁, rfl⟩
    · injection hx with hx
      subst hx
      exact hatt
    · exact h9 e₁ he₁ x hx
  · intro e' he' x hx
    rw [attached_updConn hfid]
    obtain ⟨e₁, he₁, hcase⟩ := mem_setEntry he'
    rcases hcase with ⟨hn₁, rfl⟩ | ⟨hn₁, rfl⟩
    · exact h10 e₁ he₁ x (mem_removeCid.1 hx).1
    · exact h10 e₁ he₁ x hx

theorem inv_replace {s : RegState} {cid owner : ConnId} {n : String} {fl : NameFlags}
    {e : kdbus_name_entry} (h : Inv s) (hatt : attached s cid)
    (hl : kdbus_name_lookup s.entries n = some e) (he : e.conn = some owner)
    (hno : owner ≠ cid) :
    Inv ⟨setEntry s.entries n fun e' =>
           { e' with conn := some cid, flags := fl,
                     queue_list := removeCid e'.queue_list cid },
         updConn
           (updConn s.conns owner fun c =>
             { c with names_list := removeStr c.names_list n })
           cid fun c =>
             { c with names_list := n :: c.names_list,
                      names_queue_list := removeStr c.names_queue_list n }⟩ := by
  obtain ⟨h1, h2, h3, h4, h5, h6, h7, h8, h9, h10⟩ := h
  obtain ⟨hemem, hename⟩ := lookup_mem hl
  have hf₁id : ∀ c : Conn,
      (({ c with names_list := removeStr c.names_list n } : Conn)).id = c.id := fun _ => rfl
  rw [updConn_updConn hno hf₁id]
  have hgname : ∀ e' : kdbus_name_entry,
      (({ e' with conn := some cid, flags := fl,
                  queue_list := removeCid e'.queue_list cid } : kdbus_name_entry)).name
        = e'.name := fun _ => rfl
  have hFid : ∀ c : Conn,
      ((if c.id = owner then
          ({ c with names_list := removeStr c.names_list n } : Conn)
        else if c.id = cid then
          ({ c with names_list := n :: c.names_list,
                    names_queue_list := removeStr c.names_queue_list n } : Conn)
        else c)).id = c.id := by
    intro c
    by_cases h₁ : c.id = owner
    · rw [if_pos h₁]
    · rw [if_neg h₁]
      by_cases h₂ : c.id = cid
      · rw [if_pos h₂]
      · rw [if_neg h₂]
  have huniq : ∀ e₁ ∈ s.entries, e₁.name = n → e₁ = e := by
    intro e₁ he₁ hn₁
    exact name_unique h1 he₁ hemem (by rw [hn₁, hename])
  refine ⟨?_, ?_, ?_, ?_, ?_, ?_, ?_, ?_, ?_, ?_⟩
  · rw [setEntry_map_name hgname]
    exact h1
  · rw [show (RegState.mk _ (s.conns.map _)).conns = s.conns.map _ from rfl]
    rw [map_conn_id hFid]
    exact h2
  · intro e' he'
    obtain ⟨e₁, he₁, hcase⟩ := mem_setEntry he'
    rcases hcase with ⟨_, rfl⟩ | ⟨_, rfl⟩
    · exact removeCid_nodup (h3 e₁ he₁)
    · exact h3 e₁ he₁
  · intro e' he' x hx
    obtain ⟨e₁, he₁, hcase⟩ := mem_setEntry he'
    rcases hcase with ⟨hn₁, rfl⟩ | ⟨hn₁, rfl⟩
    · injection hx with hx
      subst hx
      exact not_mem_removeCid_self
    · exact h4 e₁ he₁ x hx
  · intro e' he' c' hc'
    obtain ⟨e₁, he₁, hcase⟩ := mem_setEntry he'
    obtain ⟨c, hc, hcase2⟩ := mem_map3 hc'
    rcases hcase with ⟨hn₁, rfl⟩ | ⟨hn₁, rfl⟩
    · have he₁e : e₁ = e := huniq e₁ he₁ hn₁
      rcases hcase2 with ⟨hid, rfl⟩ | ⟨hid, hid2, rfl⟩ | ⟨hid, hid2, rfl⟩
      · constructor
        · intro hcid
          injection hcid with hcid
          rw [hid] at hcid
          exact absurd hcid.symm hno
        · intro hmem
          exact absurd hn₁ (mem_removeStr.1 hmem).2
      · constructor
        · intro _
          exact hn₁ ▸ List.mem_cons_self _ _
        · intro _
          exact congrArg some hid2.symm
      · constructor
        · intro hcid
          injection hcid with hcid
          exact absurd hcid.symm hid2
        · intro hmem
          have hconn := (h5 e₁ he₁ c hc).2 hmem
          rw [he₁e, he] at hconn
          injection hconn with hconn
          exact absurd hconn.symm hid
    · rcases hcase2 with ⟨hid, rfl⟩ | ⟨hid, hid2, rfl⟩ | ⟨hid, hid2, rfl⟩
      · constructor
        · intro hcid
          exact mem_removeStr.2 ⟨(h5 e₁ he₁ c hc).1 hcid, hn₁⟩
        · intro hmem
          exact (h5 e₁ he₁ c hc).2 (mem_removeStr.1 hmem).1
      · constructor
        · intro hcid
          exact List.mem_cons_of_mem _ ((h5 e₁ he₁ c hc).1 hcid)
        · intro hmem
          rcases List.mem_cons.1 hmem with hm | hm
          · exact absurd hm hn₁
          · exact (h5 e₁ he₁ c hc).2 hm
      · exact h5 e₁ he₁ c hc
  · intro e' he' c' hc'
    obtain ⟨e₁, he₁, hcase⟩ := mem_setEntry he'
    obtain ⟨c, hc, hcase2⟩ := mem_map3 hc'
    rcases hcase with ⟨hn₁, rfl⟩ | ⟨hn₁, rfl⟩
    · rcases hcase2 with ⟨hid, rfl⟩ | ⟨hid, hid2, rfl⟩ | ⟨hid, hid2, rfl⟩
      · constructor
        · intro hmem
          exact (h6 e₁ he₁ c hc).1 (mem_removeCid.1 hmem).1
        · intro hmem
          refine mem_removeCid.2 ⟨(h6 e₁ he₁ c hc).2 hmem, ?_⟩
          rw [hid]
          exact hno
      · constructor
        · intro hmem
          exact absurd hid2 (mem_removeCid.1 hmem).2
        · intro hmem
          exact absurd hn₁ (mem_removeStr.1 hmem).2
      · constructor
        · intro hmem
          exact (h6 e₁ he₁ c hc).1 (mem_removeCid.1 hmem).1
        · intro hmem
          exact mem_removeCid.2 ⟨(h6 e₁ he₁ c hc).2 hmem, hid2⟩
    · rcases hcase2 with ⟨hid, rfl⟩ | ⟨hid, hid2, rfl⟩ | ⟨hid, hid2, rfl⟩
      · exact h6 e₁ he₁ c hc
      · constructor
        · intro hmem
          exact mem_removeStr.2 ⟨(h6 e₁ he₁ c hc).1 hmem, hn₁⟩
        · intro hmem
          exact (h6 e₁ he₁ c hc).2 (mem_removeStr.1 hmem).1
      · exact h6 e₁ he₁ c hc
  · intro c' hc' m hm
    obtain ⟨c, hc, hcase⟩ := mem_map3 hc'
    rw [setEntry_exists_name hgname]
    rcases hcase with ⟨hid, rfl⟩ | ⟨hid, hid2, rfl⟩ | ⟨hid, hid2, rfl⟩
    · exact h7 c hc m (mem_removeStr.1 hm).1
    · rcases List.mem_cons.1 hm with rfl | hm2
      · exact ⟨e, hemem, hename⟩
      · exact h7 c hc m hm2
    · exact h7 c hc m hm
  · intro c' hc' m hm
    obtain ⟨c, hc, hcase⟩ := mem_map3 hc'
    rw [setEntry_exists_name hgname]
    rcases hcase with ⟨hid, rfl⟩ | ⟨hid, hid2, rfl⟩ | ⟨hid, hid2, rfl⟩
    · exact h8 c hc m hm
    · exact h8 c hc m (mem_removeStr.1 hm).1
    · exact h8 c hc m hm
  · intro e' he' x hx
    rw [attached_map hFid]
    obtain ⟨e₁, he₁, hcase⟩ := mem_setEntry he'
    rcases hcase with ⟨hn₁, rfl⟩ | ⟨hn₁, rfl⟩
    · injection hx with hx
      subst hx
      exact hatt
    · exact h9 e₁ he₁ x hx
  · intro e' he' x hx
    rw [attached_map hFid]
    obtain ⟨e₁, he₁, hcase⟩ := mem_setEntry he'
    rcases hcase with ⟨hn₁, rfl⟩ | ⟨hn₁, rfl⟩
    · exact h10 e₁ he₁ x (mem_removeCid.1 hx).1
    · exact h10 e₁ he₁ x hx

theorem mem_filterName {es : List kdbus_name_entry} {n : String} {e' : kdbus_name_entry} :
    e' ∈ (es.filter fun e => decide (e.name ≠ n)) ↔ e' ∈ es ∧ e'.name ≠ n := by
  simp [List.mem_filter]

theorem inv_enqueue {s : RegState} {cid owner : ConnId} {n : String}
    {e : kdbus_name_entry} (h : Inv s) (hatt : attached s cid)
    (hl : kdbus_name_lookup s.entries n = some e) (he : e.conn = some owner)
    (hno : owner ≠ cid) (hq : cid ∉ e.queue_list) :
    Inv ⟨setEntry s.entries n fun e' =>
           { e' with queue_list := e'.queue_list ++ [cid] },
         updConn s.conns cid fun c =>
           { c with names_queue_list := n :: c.names_queue_list }⟩ := by
  obtain ⟨h1, h2, h3, h4, h5, h6, h7, h8, h9, h10⟩ := h
  obtain ⟨hemem, hename⟩ := lookup_mem hl
  have hgname : ∀ e' : kdbus_name_entry,
      (({ e' with queue_list := e'.queue_list ++ [cid] } : kdbus_name_entry)).name
        = e'.name := fun _ => rfl
  have hfid : ∀ c : Conn,
      (({ c with names_queue_list := n :: c.names_queue_list } : Conn)).id = c.id :=
    fun _ => rfl
  have huniq : ∀ e₁ ∈ s.entries, e₁.name = n → e₁ = e := by
    intro e₁ he₁ hn₁
    exact name_unique h1 he₁ hemem (by rw [hn₁, hename])
  refine ⟨?_, ?_, ?_, ?_, ?_, ?_, ?_, ?_, ?_, ?_⟩
  · rw [setEntry_map_name hgname]
    exact h1
  · rw [show (RegState.mk _ (updConn s.conns cid _)).conns = updConn s.conns cid _ from rfl]
    rw [updConn_map_id hfid]
    exact h2
  · intro e' he'
    obtain ⟨e₁, he₁, hcase⟩ := mem_setEntry he'
    rcases hcase with ⟨hn₁, rfl⟩ | ⟨_, rfl⟩
    · have he₁e : e₁ = e := huniq e₁ he₁ hn₁
      rw [List.nodup_append]
      refine ⟨h3 e₁ he₁, List.nodup_singleton _, ?_⟩
      intro a ha hb
      rw [List.mem_singleton] at hb
      subst hb
      rw [he₁e] at ha
      exact hq ha
    · exact h3 e₁ he₁
  · intro e' he' x hx
    obtain ⟨e₁, he₁, hcase⟩ := mem_setEntry he'
    rcases hcase with ⟨hn₁, rfl⟩ | ⟨hn₁, rfl⟩
    · have he₁e : e₁ = e := huniq e₁ he₁ hn₁
      have hx' : e₁.conn = some x := hx
      rw [he₁e, he] at hx'
      injection hx' with hx'
      subst hx'
      intro hmem
      rcases List.mem_append.1 hmem with hm | hm
      · rw [he₁e] at hm
        exact h4 e hemem owner he hm
      · rw [List.mem_singleton] at hm
        exact hno hm
    · exact h4 e₁ he₁ x hx
  · intro e' he' c' hc'
    obtain ⟨e₁, he₁, hcase⟩ := mem_setEntry he'
    obtain ⟨c, hc, hcase2⟩ := mem_updConn hc'
    rcases hcase with ⟨hn₁, rfl⟩ | ⟨hn₁, rfl⟩ <;>
      rcases hcase2 with ⟨hid, rfl⟩ | ⟨hid, rfl⟩ <;>
      exact h5 e₁ he₁ c hc
  · intro e' he' c' hc'
    obtain ⟨e₁, he₁, hcase⟩ := mem_setEntry he'
    obtain ⟨c, hc, hcase2⟩ := mem_updConn hc'
    rcases hcase with ⟨hn₁, rfl⟩ | ⟨hn₁, rfl⟩
    · rcases hcase2 with ⟨hid, rfl⟩ | ⟨hid, rfl⟩
      · constructor
        · intro _
          exact hn₁ ▸ List.mem_cons_self _ _
        · intro _
          rw [hfid, hid]
          exact List.mem_append.2 (Or.inr (List.mem_singleton.2 rfl))
      · constructor
        · intro hmem
          rcases List.mem_append.1 hmem with hm | hm
          · exact (h6 e₁ he₁ c hc).1 hm
          · rw [List.mem_singleton] at hm
            exact absurd hm hid
        · intro hmem
          exact List.mem_append.2 (Or.inl ((h6 e₁ he₁ c hc).2 hmem))
    · rcases hcase2 with ⟨hid, rfl⟩ | ⟨hid, rfl⟩
      · constructor
        · intro hmem
          exact List.mem_cons_of_mem _ ((h6 e₁ he₁ c hc).1 hmem)
        · intro hmem
          rcases List.mem_cons.1 hmem with hm | hm
          · exact absurd hm hn₁
          · exact (h6 e₁ he₁ c hc).2 hm
      · exact h6 e₁ he₁ c hc
  · intro c' hc' m hm
    obtain ⟨c, hc, hcase⟩ := mem_updConn hc'
    rw [setEntry_exists_name hgname]
    rcases hcase with ⟨hid, rfl⟩ | ⟨hid, rfl⟩
    · exact h7 c hc m hm
    · exact h7 c hc m hm
  · intro c' hc' m hm
    obtain ⟨c, hc, hcase⟩ := mem_updConn hc'
    rw [setEntry_exists_name hgname]
    rcases hcase with ⟨hid, rfl⟩ | ⟨hid, rfl⟩
    · rcases List.mem_cons.1 hm with rfl | hm2
      · exact ⟨e, hemem, hename⟩
      · exact h8 c hc m hm2
    · exact h8 c hc m hm
  · intro e' he' x hx
    rw [attached_updConn hfid]
    obtain ⟨e₁, he₁, hcase⟩ := mem_setEntry he'
    rcases hcase with ⟨hn₁, rfl⟩ | ⟨hn₁, rfl⟩
    · exact h9 e₁ he₁ x hx
    · exact h9 e₁ he₁ x hx
  · intro e' he' x hx
    rw [attached_updConn hfid]
    obtain ⟨e₁, he₁, hcase⟩ := mem_setEntry he'
    rcases hcase with ⟨hn₁, rfl⟩ | ⟨hn₁, rfl⟩
    · rcases List.mem_append.1 hx with hm | hm
      · exact h10 e₁ he₁ x hm
      · rw [List.mem_singleton] at hm
        subst hm
        exact hatt
    · exact h10 e₁ he₁ x hx

theorem inv_delete {s : RegState} {cid : ConnId} {n : String}
    {e : kdbus_name_entry} (h : Inv s)
    (hl : kdbus_name_lookup s.entries n = some e) (he : e.conn = some cid)
    (hq : e.queue_list = []) :
    Inv ⟨s.entries.filter fun e' => decide (e'.name ≠ n),
         updConn s.conns cid fun c =>
           { c with names_list := removeStr c.names_list n }⟩ := by
  obtain ⟨h1, h2, h3, h4, h5, h6, h7, h8, h9, h10⟩ := h
  obtain ⟨hemem, hename⟩ := lookup_mem hl
  have hfid : ∀ c : Conn,
      (({ c with names_list := removeStr c.names_list n } : Conn)).id = c.id :=
    fun _ => rfl
  have huniq : ∀ e₁ ∈ s.entries, e₁.name = n → e₁ = e := by
    intro e₁ he₁ hn₁
    exact name_unique h1 he₁ hemem (by rw [hn₁, hename])
  refine ⟨?_, ?_, ?_, ?_, ?_, ?_, ?_, ?_, ?_, ?_⟩
  · exact List.Nodup.sublist (List.Sublist.map _ (List.filter_sublist _)) h1
  · rw [show (RegState.mk _ (updConn s.conns cid _)).conns = updConn s.conns cid _ from rfl]
    rw [updConn_map_id hfid]
    exact h2
  · intro e' he'
    exact h3 e' (mem_filterName.1 he').1
  · intro e' he' x hx
    exact h4 e' (mem_filterName.1 he').1 x hx
  · intro e' he' c' hc'
    obtain ⟨he'mem, hne⟩ := mem_filterName.1 he'
    obtain ⟨c, hc, hcase⟩ := mem_updConn hc'
    rcases hcase with ⟨hid, rfl⟩ | ⟨hid, rfl⟩
    · constructor
      · intro hcid
        exact mem_removeStr.2 ⟨(h5 e' he'mem c hc).1 hcid, hne⟩
      · intro hmem
        exact (h5 e' he'mem c hc).2 (mem_removeStr.1 hmem).1
    · exact h5 e' he'mem c hc
  · intro e' he' c' hc'
    obtain ⟨he'mem, hne⟩ := mem_filterName.1 he'
    obtain ⟨c, hc, hcase⟩ := mem_updConn hc'
    rcases hcase with ⟨hid, rfl⟩ | ⟨hid, rfl⟩
    · exact h6 e' he'mem c hc
    · exact h6 e' he'mem c hc
  · intro c' hc' m hm
    obtain ⟨c, hc, hcase⟩ := mem_updConn hc'
    rcases hcase with ⟨hid, rfl⟩ | ⟨hid, rfl⟩
    · obtain ⟨hm1, hm2⟩ := mem_removeStr.1 hm
      obtain ⟨e₂, he₂, hname₂⟩ := h7 c hc m hm1
      exact ⟨e₂, mem_filterName.2 ⟨he₂, by rw [hname₂]; exact hm2⟩, hname₂⟩
    · obtain ⟨e₂, he₂, hname₂⟩ := h7 c hc m hm
      have hmn : m ≠ n := by
        intro hmn
        subst hmn
        have he₂e : e₂ = e := huniq e₂ he₂ hname₂
        have hcid := (h5 e₂ he₂ c hc).2 (hname₂ ▸ hm)
        rw [he₂e, he] at hcid
        injection hcid with hcid
        exact hid hcid.symm
      exact ⟨e₂, mem_filterName.2 ⟨he₂, by rw [hname₂]; exact hmn⟩, hname₂⟩
  · intro c' hc' m hm
    obtain ⟨c, hc, hcase⟩ := mem_updConn hc'
    have hmain : ∀ cc : Conn, cc ∈ s.conns → m ∈ cc.names_queue_list →
        ∃ e2 ∈ s.entries.filter fun e' => decide (e'.name ≠ n), e2.name = m := by
      intro cc hcc hmm
      obtain ⟨e₂, he₂, hname₂⟩ := h8 cc hcc m hmm
      have hmn : m ≠ n := by
        intro hmn
        subst hmn
        have he₂e : e₂ = e := huniq e₂ he₂ hname₂
        have hcid := (h6 e₂ he₂ cc hcc).2 (hname₂ ▸ hmm)
        rw [he₂e, hq] at hcid
        exact absurd hcid (List.not_mem_nil _)
      exact ⟨e₂, mem_filterName.2 ⟨he₂, by rw [hname₂]; exact hmn⟩, hname₂⟩
    rcases hcase with ⟨hid, rfl⟩ | ⟨hid, rfl⟩
    · exact hmain c hc hm
    · exact hmain c hc hm
  · intro e' he' x hx
    rw [attached_updConn hfid]
    exact h9 e' (mem_filterName.1 he').1 x hx
  · intro e' he' x hx
    rw [attached_updConn hfid]
    exact h10 e' (mem_filterName.1 he').1 x hx

theorem inv_promote {s : RegState} {cid w : ConnId} {n : String} {rest : List ConnId}
    {e : kdbus_name_entry} (h : Inv s)
    (hl : kdbus_name_lookup s.entries n = some e) (he : e.conn = some cid)
    (hq : e.queue_list = w :: rest) :
    Inv ⟨setEntry s.entries n fun e' =>
           { e' with conn := some w, queue_list := rest },
         updConn
           (updConn s.conns cid fun c =>
             { c with names_list := removeStr c.names_list n })
           w fun c =>
             { c with names_list := n :: c.names_list,
                      names_queue_list := removeStr c.names_queue_list n }⟩ := by
  obtain ⟨h1, h2, h3, h4, h5, h6, h7, h8, h9, h10⟩ := h
  obtain ⟨hemem, hename⟩ := lookup_mem hl
  have hcidq : cid ∉ e.queue_list := h4 e hemem cid he
  have hwne : w ≠ cid := by
    intro hwc
    rw [hq] at hcidq
    exact hcidq (hwc ▸ List.mem_cons_self _ _)
  have hwrest : w ∉ rest := by
    have := h3 e hemem
    rw [hq] at this
    exact (List.nodup_cons.1 this).1
  have hcidrest : cid ∉ rest := by
    intro hmem
    rw [hq] at hcidq
    exact hcidq (List.mem_cons_of_mem _ hmem)
  have hattw : attached s w := h10 e hemem w (by rw [hq]; exact List.mem_cons_self _ _)
  have hf₁id : ∀ c : Conn,
      (({ c with names_list := removeStr c.names_list n } : Conn)).id = c.id := fun _ => rfl
  rw [updConn_updConn hwne.symm hf₁id]
  have hgname : ∀ e' : kdbus_name_entry,
      (({ e' with conn := some w, queue_list := rest } : kdbus_name_entry)).name
        = e'.name := fun _ => rfl
  have hFid : ∀ c : Conn,
      ((if c.id = cid then
          ({ c with names_list := removeStr c.names_list n } : Conn)
        else if c.id = w then
          ({ c with names_list := n :: c.names_list,
                    names_queue_list := removeStr c.names_queue_list n } : Conn)
        else c)).id = c.id := by
    intro c
    by_cases h₁ : c.id = cid
    · rw [if_pos h₁]
    · rw [if_neg h₁]
      by_cases h₂ : c.id = w
      · rw [if_pos h₂]
      · rw [if_neg h₂]
  have huniq : ∀ e₁ ∈ s.entries, e₁.name = n → e₁ = e := by
    intro e₁ he₁ hn₁
    exact name_unique h1 he₁ hemem (by rw [hn₁, hename])
  have hrestnd : rest.Nodup := by
    have := h3 e hemem
    rw [hq] at this
    exact (List.nodup_cons.1 this).2
  refine ⟨?_, ?_, ?_, ?_, ?_, ?_, ?_, ?_, ?_, ?_⟩
  · rw [setEntry_map_name hgname]
    exact h1
  · rw [show (RegState.mk _ (s.conns.map _)).conns = s.conns.map _ from rfl]
    rw [map_conn_id hFid]
    exact h2
  · intro e' he'
    obtain ⟨e₁, he₁, hcase⟩ := mem_setEntry he'
    rcases hcase with ⟨_, rfl⟩ | ⟨_, rfl⟩
    · exact hrestnd
    · exact h3 e₁ he₁
  · intro e' he' x hx
    obtain ⟨e₁, he₁, hcase⟩ := mem_setEntry he'
    rcases hcase with ⟨hn₁, rfl⟩ | ⟨hn₁, rfl⟩
    · have hx' : some w = some x := hx
      injection hx' with hx'
      subst hx'
      exact hwrest
    · exact h4 e₁ he₁ x hx
  · intro e' he' c' hc'
    obtain ⟨e₁, he₁, hcase⟩ := mem_setEntry he'
    obtain ⟨c, hc, hcase2⟩ := mem_map3 hc'
    rcases hcase with ⟨hn₁, rfl⟩ | ⟨hn₁, rfl⟩
    · have he₁e : e₁ = e := huniq e₁ he₁ hn₁
      rcases hcase2 with ⟨hid, rfl⟩ | ⟨hid, hid2, rfl⟩ | ⟨hid, hid2, rfl⟩
      · constructor
        · intro hcid
          injection hcid with hcid
          rw [hid] at hcid
          exact absurd hcid hwne
        · intro hmem
          exact absurd hn₁ (mem_removeStr.1 hmem).2
      · constructor
        · intro _
          exact hn₁ ▸ List.mem_cons_self _ _
        · intro _
          exact congrArg some hid2.symm
      · constructor
        · intro hcid
          injection hcid with hcid
          exact absurd hcid.symm hid2
        · intro hmem
          have hconn := (h5 e₁ he₁ c hc).2 hmem
          rw [he₁e, he] at hconn
          injection hconn with hconn
          exact absurd hconn.symm hid
    · rcases hcase2 with ⟨hid, rfl⟩ | ⟨hid, hid2, rfl⟩ | ⟨hid, hid2, rfl⟩
      · constructor
        · intro hcid
          exact mem_removeStr.2 ⟨(h5 e₁ he₁ c hc).1 hcid, hn₁⟩
        · intro hmem
          exact (h5 e₁ he₁ c hc).2 (mem_removeStr.1 hmem).1
      · constructor
        · intro hcid
          exact List.mem_cons_of_mem _ ((h5 e₁ he₁ c hc).1 hcid)
        · intro hmem
          rcases List.mem_cons.1 hmem with hm | hm
          · exact absurd hm hn₁
          · exact (h5 e₁ he₁ c hc).2 hm
      · exact h5 e₁ he₁ c hc
  · intro e' he' c' hc'
    obtain ⟨e₁, he₁, hcase⟩ := mem_setEntry he'
    obtain ⟨c, hc, hcase2⟩ := mem_map3 hc'
    rcases hcase with ⟨hn₁, rfl⟩ | ⟨hn₁, rfl⟩
    · have he₁e : e₁ = e := huniq e₁ he₁ hn₁
      rcases hcase2 with ⟨hid, rfl⟩ | ⟨hid, hid2, rfl⟩ | ⟨hid, hid2, rfl⟩
      · constructor
        · intro hmem
          have hmem2 : c.id ∈ rest := hmem
          rw [hid] at hmem2
          exact absurd hmem2 hcidrest
        · intro hmem
          have hcq := hcidq
          rw [hq] at hcq
          have hmm := (h6 e₁ he₁ c hc).2 hmem
          rw [he₁e, hq] at hmm
          rw [hid] at hmm
          exact absurd hmm hcq
      · constructor
        · intro hmem
          exact absurd hmem (by rw [hid2]; exact hwrest)
        · intro hmem
          exact absurd hn₁ (mem_removeStr.1 hmem).2
      · constructor
        · intro hmem
          have hm2 : c.id ∈ e₁.queue_list := by
            rw [he₁e, hq]
            exact List.mem_cons_of_mem _ hmem
          exact (h6 e₁ he₁ c hc).1 hm2
        · intro hmem
          have := (h6 e₁ he₁ c hc).1
          have hmm := (h6 e₁ he₁ c hc).2 hmem
          rw [he₁e, hq] at hmm
          rcases List.mem_cons.1 hmm with hm | hm
          · exact absurd hm hid2
          · exact hm
    · rcases hcase2 with ⟨hid, rfl⟩ | ⟨hid, hid2, rfl⟩ | ⟨hid, hid2, rfl⟩
      · exact h6 e₁ he₁ c hc
      · constructor
        · intro hmem
          exact mem_removeStr.2 ⟨(h6 e₁ he₁ c hc).1 hmem, hn₁⟩
        · intro hmem
          exact (h6 e₁ he₁ c hc).2 (mem_removeStr.1 hmem).1
      · exact h6 e₁ he₁ c hc
  · intro c' hc' m hm
    obtain ⟨c, hc, hcase⟩ := mem_map3 hc'
    rw [setEntry_exists_name hgname]
    rcases hcase with ⟨hid, rfl⟩ | ⟨hid, hid2, rfl⟩ | ⟨hid, hid2, rfl⟩
    · exact h7 c hc m (mem_removeStr.1 hm).1
    · rcases List.mem_cons.1 hm with rfl | hm2
      · exact ⟨e, hemem, hename⟩
      · exact h7 c hc m hm2
    · exact h7 c hc m hm
  · intro c' hc' m hm
    obtain ⟨c, hc, hcase⟩ := mem_map3 hc'
    rw [setEntry_exists_name hgname]
    rcases hcase with ⟨hid, rfl⟩ | ⟨hid, hid2, rfl⟩ | ⟨hid, hid2, rfl⟩
    · exact h8 c hc m hm
    · exact h8 c hc m (mem_removeStr.1 hm).1
    · exact h8 c hc m hm
  · intro e' he' x hx
    rw [attached_map hFid]
    obtain ⟨e₁, he₁, hcase⟩ := mem_setEntry he'
    rcases hcase with ⟨hn₁, rfl⟩ | ⟨hn₁, rfl⟩
    · have hx' : some w = some x := hx
      injection hx' with hx'
      subst hx'
      exact hattw
    · exact h9 e₁ he₁ x hx
  · intro e' he' x hx
    rw [attached_map hFid]
    obtain ⟨e₁, he₁, hcase⟩ := mem_setEntry he'
    rcases hcase with ⟨hn₁, rfl⟩ | ⟨hn₁, rfl⟩
    · exact h10 e hemem x (by rw [hq]; exact List.mem_cons_of_mem _ hx)
    · exact h10 e₁ he₁ x hx

theorem map_entry_name {es : List kdbus_name_entry}
    {G : kdbus_name_entry → kdbus_name_entry} (hG : ∀ e, (G e).name = e.name) :
    ((es.map G).map fun e => e.name) = es.map fun e => e.name := by
  rw [List.map_map]
  apply List.map_congr_left
  intro e _
  exact hG e

theorem map_entry_exists_name {es : List kdbus_name_entry}
    {G : kdbus_name_entry → kdbus_name_entry} (hG : ∀ e, (G e).name = e.name)
    {m : String} :
    (∃ e ∈ es.map G, e.name = m) ↔ ∃ e ∈ es, e.name = m := by
  constructor
  · intro ⟨e', he', hname⟩
    obtain ⟨e, he, heq⟩ := List.mem_map.1 he'
    exact ⟨e, he, by rw [← hname, ← heq, hG]⟩
  · intro ⟨e, he, hname⟩
    exact ⟨G e, List.mem_map_of_mem _ he, by rw [hG, hname]⟩

theorem inv_acquire {s : RegState} {cid : ConnId} {n : String} {fl : NameFlags}
    {priv : Bool} (h : Inv s) (hatt : attached s cid) :
    Inv (kdbus_cmd_name_acquire s cid n fl priv).2.1 := by
  by_cases hv : kdbus_name_is_valid n = false
  · rw [acquire_invalid_eq hv]
    exact h
  · have hv' : kdbus_name_is_valid n = true := by simpa using hv
    cases hl : kdbus_name_lookup s.entries n with
    | none =>
      rw [acquire_fresh_eq hv' hl]
      exact inv_fresh h hatt (lookup_eq_none_iff.1 hl)
    | some e =>
      cases he : e.conn with
      | none =>
        rw [acquire_unowned_eq hv' hl he]
        exact inv_unowned h hatt hl he
      | some owner =>
        by_cases ho : owner = cid
        · subst ho
          rw [acquire_alreadyOwner_eq hv' hl he]
          exact h
        · by_cases hrep : (fl.allowReplacement && priv) = true
          · rw [acquire_replace_eq hv' hl he ho hrep]
            exact inv_replace h hatt hl he ho
          · have hrep' : (fl.allowReplacement && priv) = false := by simpa using hrep
            by_cases hdq : fl.doNotQueue = true
            · rw [acquire_inuse_eq hv' hl he ho hrep' hdq]
              exact h
            · have hdq' : fl.doNotQueue = false := by simpa using hdq
              by_cases hq : cid ∈ e.queue_list
              · rw [acquire_requeue_eq hv' hl he ho hrep' hdq' hq]
                exact h
              · rw [acquire_enqueue_eq hv' hl he ho hrep' hdq' hq]
                exact inv_enqueue h hatt hl he ho hq

theorem inv_release {s : RegState} {cid : ConnId} {n : String} (h : Inv s) :
    Inv (kdbus_cmd_name_release s cid n).2.1 := by
  cases hl : kdbus_name_lookup s.entries n with
  | none =>
    rw [release_noentry_eq hl]
    exact h
  | some e =>
    by_cases he : e.conn = some cid
    · cases hq : e.queue_list with
      | nil =>
        rw [release_delete_eq hl he hq]
        exact inv_delete h hl he hq
      | cons w rest =>
        rw [release_promote_eq hl he hq]
        exact inv_promote h hl he hq
    · rw [release_notowner_eq hl he]
      exact h

theorem inv_releaseAll {cid : ConnId} (ns : List String) :
    ∀ s : RegState, Inv s → Inv (releaseAll cid s ns).1 := by
  induction ns with
  | nil =>
    intro s h
    exact h
  | cons n ns ih =>
    intro s h
    rw [releaseAll]
    exact ih _ (inv_release h)

theorem inv_purge {s : RegState} {cid : ConnId} (h : Inv s) :
    Inv (purgeQueues s cid) := by
  obtain ⟨h1, h2, h3, h4, h5, h6, h7, h8, h9, h10⟩ := h
  have hGname : ∀ e : kdbus_name_entry,
      (({ e with queue_list := removeCid e.queue_list cid } : kdbus_name_entry)).name
        = e.name := fun _ => rfl
  have hfid : ∀ c : Conn,
      (({ c with names_queue_list := ([] : List String) } : Conn)).id = c.id := fun _ => rfl
  unfold purgeQueues
  refine ⟨?_, ?_, ?_, ?_, ?_, ?_, ?_, ?_, ?_, ?_⟩
  · rw [show (RegState.mk (s.entries.map _) _).entries = s.entries.map _ from rfl]
    rw [map_entry_name hGname]
    exact h1
  · rw [show (RegState.mk _ (updConn s.conns cid _)).conns = updConn s.conns cid _ from rfl]
    rw [updConn_map_id hfid]
    exact h2
  · intro e' he'
    obtain ⟨e₁, he₁, rfl⟩ := List.mem_map.1 he'
    exact removeCid_nodup (h3 e₁ he₁)
  · intro e' he' x hx
    obtain ⟨e₁, he₁, rfl⟩ := List.mem_map.1 he'
    intro hmem
    exact h4 e₁ he₁ x hx (mem_removeCid.1 hmem).1
  · intro e' he' c' hc'
    obtain ⟨e₁, he₁, rfl⟩ := List.mem_map.1 he'
    obtain ⟨c, hc, hcase⟩ := mem_updConn hc'
    rcases hcase with ⟨hid, rfl⟩ | ⟨hid, rfl⟩
    · exact h5 e₁ he₁ c hc
    · exact h5 e₁ he₁ c hc
  · intro e' he' c' hc'
    obtain ⟨e₁, he₁, rfl⟩ := List.mem_map.1 he'
    obtain ⟨c, hc, hcase⟩ := mem_updConn hc'
    rcases hcase with ⟨hid, rfl⟩ | ⟨hid, rfl⟩
    · constructor
      · intro hmem
        exact absurd hid (mem_removeCid.1 (hfid c ▸ hmem)).2
      · intro hmem
        exact absurd hmem (List.not_mem_nil _)
    · constructor
      · intro hmem
        exact (h6 e₁ he₁ c hc).1 (mem_removeCid.1 hmem).1
      · intro hmem
        exact mem_removeCid.2 ⟨(h6 e₁ he₁ c hc).2 hmem, hid⟩
  · intro c' hc' m hm
    obtain ⟨c, hc, hcase⟩ := mem_updConn hc'
    rw [show (RegState.mk (s.entries.map _) _).entries = s.entries.map _ from rfl]
    rw [map_entry_exists_name hGname]
    rcases hcase with ⟨hid, rfl⟩ | ⟨hid, rfl⟩
    · exact h7 c hc m hm
    · exact h7 c hc m hm
  · intro c' hc' m hm
    obtain ⟨c, hc, hcase⟩ := mem_updConn hc'
    rw [show (RegState.mk (s.entries.map _) _).entries = s.entries.map _ from rfl]
    rw [map_entry_exists_name hGname]
    rcases hcase with ⟨hid, rfl⟩ | ⟨hid, rfl⟩
    · exact absurd hm (List.not_mem_nil _)
    · exact h8 c hc m hm
  · intro e' he' x hx
    rw [attached_updConn hfid]
    obtain ⟨e₁, he₁, rfl⟩ := List.mem_map.1 he'
    exact h9 e₁ he₁ x hx
  · intro e' he' x hx
    rw [attached_updConn hfid]
    obtain ⟨e₁, he₁, rfl⟩ := List.mem_map.1 he'
    exact h10 e₁ he₁ x (mem_removeCid.1 hx).1

theorem inv_remove_by_conn {s : RegState} {cid : ConnId} (h : Inv s) :
    Inv (kdbus_name_remove_by_conn s cid).1 := by
  unfold kdbus_name_remove_by_conn
  exact inv_purge (inv_releaseAll _ s h)

theorem attached_cons {es : List kdbus_name_entry} {c₀ : Conn} {cs : List Conn}
    {x : ConnId} :
    attached ⟨es, c₀ :: cs⟩ x ↔ x = c₀.id ∨ x ∈ cs.map fun c => c.id := by
  unfold attached
  simp

theorem inv_connect {s : RegState} {cid : ConnId} (h : Inv s)
    (hnot : ¬ attached s cid) :
    Inv ⟨s.entries, ⟨cid, false, false, [], [], []⟩ :: s.conns⟩ := by
  obtain ⟨h1, h2, h3, h4, h5, h6, h7, h8, h9, h10⟩ := h
  refine ⟨h1, ?_, h3, h4, ?_, ?_, ?_, ?_, ?_, ?_⟩
  · simp only [List.map_cons, List.nodup_cons]
    exact ⟨hnot, h2⟩
  · intro e he c' hc'
    rcases List.mem_cons.1 hc' with rfl | hc'
    · constructor
      · intro hcid
        exact absurd (h9 e he _ hcid) hnot
      · intro hmem
        exact absurd hmem (List.not_mem_nil _)
    · exact h5 e he c' hc'
  · intro e he c' hc'
    rcases List.mem_cons.1 hc' with rfl | hc'
    · constructor
      · intro hmem
        exact absurd (h10 e he _ hmem) hnot
      · intro hmem
        exact absurd hmem (List.not_mem_nil _)
    · exact h6 e he c' hc'
  · intro c' hc' m hm
    rcases List.mem_cons.1 hc' with rfl | hc'
    · exact absurd hm (List.not_mem_nil _)
    · exact h7 c' hc' m hm
  · intro c' hc' m hm
    rcases List.mem_cons.1 hc' with rfl | hc'
    · exact absurd hm (List.not_mem_nil _)
    · exact h8 c' hc' m hm
  · intro e he x hx
    rw [attached_cons]
    exact Or.inr (h9 e he x hx)
  · intro e he x hx
    rw [attached_cons]
    exact Or.inr (h10 e he x hx)

theorem inv_applyOp {s : RegState} (h : Inv s) (op : RegOp) : Inv (applyOp s op) := by
  cases op with
  | connect cid =>
    rw [applyOp]
    by_cases hatt : attached s cid
    · rw [if_pos hatt]
      exact h
    · rw [if_neg hatt]
      exact inv_connect h hatt
  | acquire cid n fl priv =>
    rw [applyOp]
    by_cases hatt : attached s cid
    · rw [if_pos hatt]
      exact inv_acquire h hatt
    · rw [if_neg hatt]
      exact h
  | release cid n =>
    rw [applyOp]
    by_cases hatt : attached s cid
    · rw [if_pos hatt]
      exact inv_release h
    · rw [if_neg hatt]
      exact h
  | disconnect cid =>
    rw [applyOp]
    by_cases hatt : attached s cid
    · rw [if_pos hatt]
      exact inv_remove_by_conn h
    · rw [if_neg hatt]
      exact h

theorem inv_initState : Inv initState := by
  refine ⟨?_, ?_, ?_, ?_, ?_, ?_, ?_, ?_, ?_, ?_⟩ <;> simp [initState]

theorem inv_runOps (ops : List RegOp) : ∀ s : RegState, Inv s → Inv (runOps s ops) := by
  induction ops with
  | nil =>
    intro s h
    exact h
  | cons op ops ih =>
    intro s h
    rw [runOps, List.foldl_cons]
    exact ih _ (inv_applyOp h op)

theorem lookup_setEntry {es : List kdbus_name_entry} {n : String}
    {g : kdbus_name_entry → kdbus_name_entry} (hg : ∀ e, (g e).name = e.name) :
    kdbus_name_lookup (setEntry es n g) n = (kdbus_name_lookup es n).map g := by
  induction es with
  | nil => rfl
  | cons a l ih =>
    by_cases ha : a.name = n
    · have h1 : setEntry (a :: l) n g = g a :: setEntry l n g := by
        unfold setEntry
        rw [List.map_cons, if_pos ha]
      have h2 : kdbus_name_lookup (a :: l) n = some a := by
        rw [kdbus_name_lookup, if_pos ha]
      have h3 : kdbus_name_lookup (g a :: setEntry l n g) n = some (g a) := by
        rw [kdbus_name_lookup, if_pos (by rw [hg a]; exact ha)]
      rw [h1, h2, h3]
      rfl
    · have h1 : setEntry (a :: l) n g = a :: setEntry l n g := by
        unfold setEntry
        rw [List.map_cons, if_neg ha]
      have h2 : kdbus_name_lookup (a :: l) n = kdbus_name_lookup l n := by
        rw [kdbus_name_lookup, if_neg ha]
      have h3 : kdbus_name_lookup (a :: setEntry l n g) n =
          kdbus_name_lookup (setEntry l n g) n := by
        rw [kdbus_name_lookup, if_neg ha]
      rw [h1, h3, h2, ih]

theorem lookup_filter_ne {es : List kdbus_name_entry} {n : String} :
    kdbus_name_lookup (es.filter fun e => decide (e.name ≠ n)) n = none := by
  rw [lookup_eq_none_iff]
  intro e he
  exact (mem_filterName.1 he).2

/-- C1: in every registry state reachable by registry operations from the
empty registry of a fresh bus, at most one connection owns any given name,
and an entry's owner field and a connection's owned-names list are
mutually consistent: the entry points at the connection exactly when the
name is on the connection's names_list. -/
theorem name_registry_consistent (ops : List RegOp) :
    (∀ n cid cid', ownsName (runOps initState ops) cid n →
        ownsName (runOps initState ops) cid' n → cid = cid') ∧
    (∀ e ∈ (runOps initState ops).entries, ∀ c ∈ (runOps initState ops).conns,
        (e.conn = some c.id ↔ e.name ∈ c.names_list)) := by
  obtain ⟨h1, _, _, _, h5, _, _, _, _, _⟩ := inv_runOps ops initState inv_initState
  constructor
  · rintro n cid cid' ⟨e, he, hen, hec⟩ ⟨e', he', hen', hec'⟩
    have heq : e = e' := name_unique h1 he he' (by rw [hen, hen'])
    subst heq
    rw [hec] at hec'
    exact Option.some.inj hec'
  · exact h5

/-- C3: acquiring a syntactically invalid name fails with invalidName and
leaves the registry state completely untouched, emitting no
notification. -/
theorem kdbus_cmd_name_acquire_invalid (s : RegState) (cid : ConnId) (n : String)
    (fl : NameFlags) (priv : Bool) (hv : kdbus_name_is_valid n = false) :
    kdbus_cmd_name_acquire s cid n fl priv = (.error .invalidName, s, []) :=
  acquire_invalid_eq hv

/-- Witness for C3: the invalid name of spec scenario 5 on the empty
registry. -/
theorem kdbus_cmd_name_acquire_invalid_witness :
    kdbus_name_is_valid "123.bad" = false ∧
    kdbus_cmd_name_acquire initState 1 "123.bad" ⟨false, false⟩ false =
      (.error .invalidName, initState, []) :=
  ⟨by decide,
   kdbus_cmd_name_acquire_invalid initState 1 "123.bad" ⟨false, false⟩ false (by decide)⟩

/-- C4: releasing a name the caller does not hold fails with notOwner and
changes nothing; release by the owner succeeds and either promotes the
head of the FIFO waiting queue to owner, the remaining waiters keeping
their order, or deletes the entry when the queue is empty, emitting one
owner-changed notification either way. -/
theorem kdbus_cmd_name_release_spec (s : RegState) (cid : ConnId) (n : String) :
    (¬ ownsName s cid n →
        kdbus_cmd_name_release s cid n = (.error .notOwner, s, [])) ∧
    (∀ e, kdbus_name_lookup s.entries n = some e → e.conn = some cid →
      (kdbus_cmd_name_release s cid n).1 = .ok () ∧
      (e.queue_list = [] →
        kdbus_name_lookup (kdbus_cmd_name_release s cid n).2.1.entries n = none ∧
        (kdbus_cmd_name_release s cid n).2.2 = [.ownerChanged n (some cid) none]) ∧
      (∀ w rest, e.queue_list = w :: rest →
        kdbus_name_lookup (kdbus_cmd_name_release s cid n).2.1.entries n =
          some { e with conn := some w, queue_list := rest } ∧
        (kdbus_cmd_name_release s cid n).2.2 =
          [.ownerChanged n (some cid) (some w)])) := by
  constructor
  · intro hnot
    cases hl : kdbus_name_lookup s.entries n with
    | none => exact release_noentry_eq hl
    | some e =>
      have he : e.conn ≠ some cid := by
        intro hc
        obtain ⟨hmem, hname⟩ := lookup_mem hl
        exact hnot ⟨e, hmem, hname, hc⟩
      exact release_notowner_eq hl he
  · intro e hl he
    refine ⟨?_, ?_, ?_⟩
    · cases hq : e.queue_list with
      | nil => rw [release_delete_eq hl he hq]
      | cons w rest => rw [release_promote_eq hl he hq]
    · intro hq
      rw [release_delete_eq hl he hq]
      exact ⟨lookup_filter_ne, rfl⟩
    · intro w rest hq
      rw [release_promote_eq hl he hq]
      constructor
      · show kdbus_name_lookup (setEntry s.entries n fun e' =>
            { e' with conn := some w, queue_list := rest }) n =
          some { e with conn := some w, queue_list := rest }
        rw [@lookup_setEntry s.entries n
            (fun e' => { e' with conn := some w, queue_list := rest }) (fun _ => rfl), hl]
        rfl
      · rfl

/-- Concrete registry with one owned name and two queued waiters, used by
witnesses. -/
def relW : RegState :=
  ⟨[⟨"a.b", ⟨false, false⟩, [2, 3], some 1, none⟩],
   [⟨1, true, false, [], ["a.b"], []⟩, ⟨2, true, false, [], [], ["a.b"]⟩,
    ⟨3, true, false, [], [], ["a.b"]⟩]⟩

/-- Witness for C4: a non-owner release fails with notOwner, and release
by the owner promotes the head of the queue and keeps the tail order. -/
theorem kdbus_cmd_name_release_spec_witness :
    kdbus_cmd_name_release relW 5 "a.b" = (.error .notOwner, relW, []) ∧
    kdbus_name_lookup (kdbus_cmd_name_release relW 1 "a.b").2.1.entries "a.b" =
      some ⟨"a.b", ⟨false, false⟩, [3], some 2, none⟩ ∧
    (kdbus_cmd_name_release relW 1 "a.b").2.2 =
      [.ownerChanged "a.b" (some 1) (some 2)] := by
  refine ⟨?_, ?_, ?_⟩
  · exact (kdbus_cmd_name_release_spec relW 5 "a.b").1 (by decide)
  · exact (((kdbus_cmd_name_release_spec relW 1 "a.b").2
      ⟨"a.b", ⟨false, false⟩, [2, 3], some 1, none⟩ (by decide) (by decide)).2.2
      2 [3] (by decide)).1
  · exact (((kdbus_cmd_name_release_spec relW 1 "a.b").2
      ⟨"a.b", ⟨false, false⟩, [2, 3], some 1, none⟩ (by decide) (by decide)).2.2
      2 [3] (by decide)).2

theorem release_owned_spec {s : RegState} {cid : ConnId} {n : String}
    (h : Inv s) (hown : ownsName s cid n) :
    Inv (kdbus_cmd_name_release s cid n).2.1 ∧
    (∃ w, (kdbus_cmd_name_release s cid n).2.2 = [.ownerChanged n (some cid) w]) ∧
    (∀ m, ownsName (kdbus_cmd_name_release s cid n).2.1 cid m ↔
        (ownsName s cid m ∧ m ≠ n)) ∧
    (∀ e' ∈ (kdbus_cmd_name_release s cid n).2.1.entries,
        ∃ e ∈ s.entries, e'.starter = e.starter) := by
  obtain ⟨e₀, he₀, hn₀, hc₀⟩ := hown
  obtain ⟨h1, h2, h3, h4, h5, h6, h7, h8, h9, h10⟩ := id h
  have hl : kdbus_name_lookup s.entries n = some e₀ := by
    have hx := lookup_of_mem h1 he₀
    rw [hn₀] at hx
    exact hx
  cases hq : e₀.queue_list with
  | nil =>
    rw [release_delete_eq hl hc₀ hq]
    refine ⟨inv_delete h hl hc₀ hq, ⟨none, rfl⟩, ?_, ?_⟩
    · intro m
      constructor
      · rintro ⟨e', he', hm, hcn⟩
        obtain ⟨hmem, hne⟩ := mem_filterName.1 he'
        exact ⟨⟨e', hmem, hm, hcn⟩, by rw [← hm]; exact hne⟩
      · rintro ⟨⟨e₂, he₂, hm₂, hc₂⟩, hmn⟩
        exact ⟨e₂, mem_filterName.2 ⟨he₂, by rw [hm₂]; exact hmn⟩, hm₂, hc₂⟩
    · intro e' he'
      exact ⟨e', (mem_filterName.1 he').1, rfl⟩
  | cons w rest =>
    have hwne : w ≠ cid := by
      have hcq := h4 e₀ he₀ cid hc₀
      rw [hq] at hcq
      intro hwc
      exact hcq (hwc ▸ List.mem_cons_self _ _)
    rw [release_promote_eq hl hc₀ hq]
    refine ⟨inv_promote h hl hc₀ hq, ⟨some w, rfl⟩, ?_, ?_⟩
    · intro m
      constructor
      · rintro ⟨e', he', hm, hcn⟩
        obtain ⟨e₁, he₁, hcase⟩ := mem_setEntry he'
        rcases hcase with ⟨hn₁, rfl⟩ | ⟨hn₁, rfl⟩
        · exact absurd (Option.some.inj hcn) hwne
        · exact ⟨⟨e₁, he₁, hm, hcn⟩, by rw [← hm]; exact hn₁⟩
      · rintro ⟨⟨e₂, he₂, hm₂, hc₂⟩, hmn⟩
        have hne₂ : e₂.name ≠ n := by rw [hm₂]; exact hmn
        have hmem := @setEntry_mem_of_mem s.entries n
          (fun e' => { e' with conn := some w, queue_list := rest }) e₂ he₂
        rw [if_neg hne₂] at hmem
        exact ⟨e₂, hmem, hm₂, hc₂⟩
    · intro e' he'
      obtain ⟨e₁, he₁, hcase⟩ := mem_setEntry he'
      rcases hcase with ⟨hn₁, rfl⟩ | ⟨hn₁, rfl⟩
      · exact ⟨e₁, he₁, rfl⟩
      · exact ⟨e₁, he₁, rfl⟩

theorem releaseAll_spec {cid : ConnId} (ns : List String) :
    ∀ s : RegState, Inv s → ns.Nodup → (∀ n ∈ ns, ownsName s cid n) →
    Inv (releaseAll cid s ns).1 ∧
    (releaseAll cid s ns).2.length = ns.length ∧
    (∀ nf ∈ (releaseAll cid s ns).2, ∃ m ww, nf = .ownerChanged m (some cid) ww) ∧
    (∀ m, ownsName (releaseAll cid s ns).1 cid m ↔
        (ownsName s cid m ∧ m ∉ ns)) ∧
    (∀ e' ∈ (releaseAll cid s ns).1.entries, ∃ e ∈ s.entries, e'.starter = e.starter) := by
  induction ns with
  | nil =>
    intro s h _ _
    refine ⟨h, rfl, ?_, ?_, ?_⟩
    · intro nf hnf
      exact absurd hnf (List.not_mem_nil _)
    · intro m
      rw [releaseAll]
      simp
    · intro e' he'
      exact ⟨e', he', rfl⟩
  | cons n ns ih =>
    intro s h hnd hall
    obtain ⟨hn₀, hnsnd⟩ := List.nodup_cons.1 hnd
    have hown : ownsName s cid n := hall n (List.mem_cons_self _ _)
    obtain ⟨hInv₁, ⟨w₀, hnf₀⟩, hiff₁, hstar₁⟩ := release_owned_spec h hown
    have hall' : ∀ m ∈ ns, ownsName (kdbus_cmd_name_release s cid n).2.1 cid m := by
      intro m hm
      refine (hiff₁ m).2 ⟨hall m (List.mem_cons_of_mem _ hm), ?_⟩
      intro hmn
      subst hmn
      exact hn₀ hm
    obtain ⟨hInv₂, hlen₂, hshape₂, hiff₂, hstar₂⟩ :=
      ih (kdbus_cmd_name_release s cid n).2.1 hInv₁ hnsnd hall'
    rw [releaseAll]
    refine ⟨hInv₂, ?_, ?_, ?_, ?_⟩
    · rw [show ((kdbus_cmd_name_release s cid n).2.2 ++
          (releaseAll cid (kdbus_cmd_name_release s cid n).2.1 ns).2).length =
          (kdbus_cmd_name_release s cid n).2.2.length +
          (releaseAll cid (kdbus_cmd_name_release s cid n).2.1 ns).2.length
          from List.length_append _ _]
      rw [hnf₀, hlen₂]
      simp only [List.length_cons, List.length_nil]
      omega
    · intro nf hnf
      rcases List.mem_append.1 hnf with hm | hm
      · rw [hnf₀] at hm
        rw [List.mem_singleton.1 hm]
        exact ⟨n, w₀, rfl⟩
      · exact hshape₂ nf hm
    · intro m
      rw [hiff₂ m, hiff₁ m]
      constructor
      · rintro ⟨⟨ho, hne⟩, hnm⟩
        refine ⟨ho, ?_⟩
        intro hmem
        rcases List.mem_cons.1 hmem with hm | hm
        · exact hne hm
        · exact hnm hm
      · rintro ⟨ho, hnm⟩
        exact ⟨⟨ho, fun hmn => hnm (hmn ▸ List.mem_cons_self _ _)⟩,
               fun hm => hnm (List.mem_cons_of_mem _ hm)⟩
    · intro e' he'
      obtain ⟨e₁, he₁, hst⟩ := hstar₂ e' he'
      obtain ⟨e₂, he₂, hst₂⟩ := hstar₁ e₁ he₁
      exact ⟨e₂, he₂, by rw [hst, hst₂]⟩

theorem mem_ownedNamesOf {s : RegState} {cid : ConnId} {m : String} :
    m ∈ ownedNamesOf s cid ↔ ownsName s cid m := by
  unfold ownedNamesOf ownsName
  constructor
  · intro hm
    obtain ⟨e, he, hname⟩ := List.mem_map.1 hm
    obtain ⟨hmem, hc⟩ := List.mem_filter.1 he
    exact ⟨e, hmem, hname, by simpa using hc⟩
  · rintro ⟨e, he, hname, hc⟩
    exact List.mem_map.2 ⟨e, List.mem_filter.2 ⟨he, by simpa using hc⟩, hname⟩

theorem ownedNamesOf_nodup {s : RegState} {cid : ConnId}
    (h1 : (s.entries.map fun e => e.name).Nodup) : (ownedNamesOf s cid).Nodup := by
  unfold ownedNamesOf
  exact List.Nodup.sublist (List.Sublist.map _ (List.filter_sublist _)) h1

/-- C5: disconnecting a connection that owns N names releases all of
them, emits exactly N owner-changed notifications each naming the
connection as the old owner, and removes the connection from every
waiting queue, so afterwards no entry's owner field, waiting queue or
starter field references it and its own name lists are empty. -/
theorem kdbus_name_remove_by_conn_spec (s : RegState) (cid : ConnId) (h : Inv s)
    (hstart : ∀ e ∈ s.entries, e.starter ≠ some cid) :
    (kdbus_name_remove_by_conn s cid).2.length = (ownedNamesOf s cid).length ∧
    (∀ nf ∈ (kdbus_name_remove_by_conn s cid).2,
        ∃ m w, nf = .ownerChanged m (some cid) w) ∧
    (∀ e ∈ (kdbus_name_remove_by_conn s cid).1.entries,
        e.conn ≠ some cid ∧ cid ∉ e.queue_list ∧ e.starter ≠ some cid) ∧
    (∀ c ∈ (kdbus_name_remove_by_conn s cid).1.conns, c.id = cid →
        c.names_list = [] ∧ c.names_queue_list = []) := by
  have h1 := h.1
  obtain ⟨hInv₂, hlen, hshape, hiff, hstar⟩ :=
    releaseAll_spec (ownedNamesOf s cid) s h (ownedNamesOf_nodup h1)
      (fun n hn => mem_ownedNamesOf.1 hn)
  have hnoown : ∀ e₂ ∈ (releaseAll cid s (ownedNamesOf s cid)).1.entries,
      e₂.conn ≠ some cid := by
    intro e₂ he₂ hc₂
    have hofin : ownsName (releaseAll cid s (ownedNamesOf s cid)).1 cid e₂.name :=
      ⟨e₂, he₂, rfl, hc₂⟩
    obtain ⟨ho, hnm⟩ := (hiff e₂.name).1 hofin
    exact hnm (mem_ownedNamesOf.2 ho)
  unfold kdbus_name_remove_by_conn
  refine ⟨hlen, hshape, ?_, ?_⟩
  · intro e' he'
    obtain ⟨e₂, he₂, rfl⟩ := List.mem_map.1 he'
    refine ⟨hnoown e₂ he₂, not_mem_removeCid_self, ?_⟩
    obtain ⟨e₃, he₃, hst⟩ := hstar e₂ he₂
    rw [show ({ e₂ with queue_list := removeCid e₂.queue_list cid } :
        kdbus_name_entry).starter = e₂.starter from rfl, hst]
    exact hstart e₃ he₃
  · intro c' hc' hid
    have hInv₃ : Inv (purgeQueues (releaseAll cid s (ownedNamesOf s cid)).1 cid) :=
      inv_purge hInv₂
    obtain ⟨g1, g2, g3, g4, g5, g6, g7, g8, g9, g10⟩ := hInv₃
    constructor
    · rw [List.eq_nil_iff_forall_not_mem]
      intro m hm
      obtain ⟨e₂, he₂, hname₂⟩ := g7 c' hc' m hm
      have hc₂ : e₂.conn = some cid := by
        have := (g5 e₂ he₂ c' hc').2 (hname₂ ▸ hm)
        rw [hid] at this
        exact this
      obtain ⟨e₃, he₃, heq₃⟩ := List.mem_map.1 he₂
      have : e₃.conn = some cid := by
        rw [← heq₃] at hc₂
        exact hc₂
      exact hnoown e₃ he₃ this
    · obtain ⟨c, hc, hcase⟩ := mem_updConn hc'
      rcases hcase with ⟨hcid, rfl⟩ | ⟨hcid, rfl⟩
      · rfl
      · exact absurd hid hcid

/-- Concrete registry for the C5 witness: connection 1 owns two names,
one with a waiter, and waits in another name's queue. -/
def remW : RegState :=
  ⟨[⟨"a.b", ⟨false, false⟩, [2], some 1, none⟩,
    ⟨"c.d", ⟨false, false⟩, [], some 1, none⟩,
    ⟨"e.f", ⟨false, false⟩, [1], some 2, none⟩],
   [⟨1, true, false, [], ["a.b", "c.d"], ["e.f"]⟩,
    ⟨2, true, false, [], ["e.f"], ["a.b"]⟩]⟩

/-- Witness for C5: disconnecting connection 1 in remW emits exactly two
owner-changed notifications and leaves no reference to it. -/
theorem kdbus_name_remove_by_conn_spec_witness :
    Inv remW ∧
    (kdbus_name_remove_by_conn remW 1).2.length = (ownedNamesOf remW 1).length ∧
    (∀ e ∈ (kdbus_name_remove_by_conn remW 1).1.entries,
        e.conn ≠ some 1 ∧ 1 ∉ e.queue_list ∧ e.starter ≠ some 1) := by
  have h := kdbus_name_remove_by_conn_spec remW 1 (by decide) (by decide)
  exact ⟨by decide, h.1, h.2.2.1⟩

/- ### Bus id counters (struct kdbus_bus of src/kdbus_internal.h, spec
section 3) and the containment hierarchy -/

/-- Kind of id drawn from the bus counters. -/
inductive IdKind where
  | ep
  | conn
  | msg
deriving DecidableEq, Repr

/-- Endpoint, mirroring the teardown-relevant fields of struct kdbus_ep
of src/kdbus_internal.h: disconnected flag, id and the attached
connections. -/
structure kdbus_ep where
  disconnected : Bool
  id : Nat
  connection_list : List Conn
deriving DecidableEq, Repr

/-- Bus, mirroring struct kdbus_bus of src/kdbus_internal.h: disconnected
flag, id, the three id sequence counters and the endpoint list. -/
structure kdbus_bus where
  disconnected : Bool
  id : Nat
  ep_id_next : Nat
  conn_id_next : Nat
  msg_id_next : Nat
  ep_list : List kdbus_ep
deriving DecidableEq, Repr

/-- Namespace, mirroring struct kdbus_ns of src/kdbus_internal.h: name,
global id, disconnected flag and the owned buses. -/
structure kdbus_ns where
  name : String
  id : Nat
  disconnected : Bool
  buses : List kdbus_bus
deriving DecidableEq, Repr

/-- Counter value for one id kind. -/
def busNext (b : kdbus_bus) : IdKind → Nat
  | .ep => b.ep_id_next
  | .conn => b.conn_id_next
  | .msg => b.msg_id_next

/-- Advance one counter. -/
def busBump (b : kdbus_bus) : IdKind → kdbus_bus
  | .ep => { b with ep_id_next := b.ep_id_next + 1 }
  | .conn => { b with conn_id_next := b.conn_id_next + 1 }
  | .msg => { b with msg_id_next := b.msg_id_next + 1 }

/-- Modelled from the spec: id allocation from the bus's monotonically
increasing sequence counters (ep_id_next, conn_id_next, msg_id_next of
struct kdbus_bus; the allocating code is not in the tree) — hand out the
current counter value and advance it. -/
def kdbus_id_alloc (b : kdbus_bus) (k : IdKind) : Nat × kdbus_bus :=
  (busNext b k, busBump b k)

/-- Ids handed out by a sequence of allocations. -/
def runAllocs (b : kdbus_bus) : List IdKind → List Nat
  | [] => []
  | k :: ks => (kdbus_id_alloc b k).1 :: runAllocs (kdbus_id_alloc b k).2 ks

theorem busNext_bump_le (b : kdbus_bus) (k k' : IdKind) :
    busNext b k ≤ busNext (busBump b k') k := by
  cases k <;> cases k' <;> simp only [busNext, busBump] <;> omega

theorem runAllocs_lower (ks : List IdKind) : ∀ b : kdbus_bus,
    ∀ p ∈ ks.zip (runAllocs b ks), busNext b p.1 ≤ p.2 := by
  induction ks with
  | nil =>
    intro b p hp
    rw [runAllocs] at hp
    exact absurd hp (List.not_mem_nil _)
  | cons k ks ih =>
    intro b p hp
    rw [runAllocs, List.zip_cons_cons] at hp
    rcases List.mem_cons.1 hp with rfl | hp
    · exact Nat.le_refl _
    · exact le_trans (busNext_bump_le b p.1 k) (ih (busBump b k) p hp)

/-- C6: along any sequence of id allocations from a bus, allocations of
the same kind yield strictly increasing ids — every id exceeds all
earlier ids of that kind, so no id of a kind is ever handed out twice
during the bus's lifetime. -/
theorem bus_ids_strictly_monotone (b : kdbus_bus) (ks : List IdKind) :
    List.Pairwise (fun p q : IdKind × Nat => p.1 = q.1 → p.2 < q.2)
      (ks.zip (runAllocs b ks)) ∧
    List.Pairwise (fun p q : IdKind × Nat => p.1 = q.1 → p.2 ≠ q.2)
      (ks.zip (runAllocs b ks)) := by
  have hmain : ∀ ks : List IdKind, ∀ b : kdbus_bus,
      List.Pairwise (fun p q : IdKind × Nat => p.1 = q.1 → p.2 < q.2)
        (ks.zip (runAllocs b ks)) := by
    intro ks
    induction ks with
    | nil =>
      intro b
      rw [runAllocs]
      exact List.Pairwise.nil
    | cons k ks ih =>
      intro b
      rw [runAllocs, List.zip_cons_cons]
      refine List.Pairwise.cons ?_ (ih (busBump b k))
      intro q hq hkq
      have hlow := runAllocs_lower ks (busBump b k) q hq
      rw [← hkq] at hlow
      have hbump : busNext (busBump b k) k = busNext b k + 1 := by
        cases k <;> rfl
      rw [hbump] at hlow
      show busNext b k < q.2
      omega
  exact ⟨hmain ks b, (hmain ks b).imp fun h heq => Nat.ne_of_lt (h heq)⟩

/- ### Inbound message queue (msg_list of struct kdbus_conn,
kdbus_kmsg_recv of src/kdbus_internal.h, spec section 4.2) -/

/-- Result of a non-blocking receive. -/
inductive RecvResult where
  | msg (m : kdbus_kmsg)
  | wouldBlock
deriving DecidableEq, Repr

/-- Modelled from the spec: kdbus_kmsg_recv (declared in
src/kdbus_internal.h, body absent) — a non-blocking receive pops the
oldest queued envelope, or fails with wouldBlock on an empty queue,
leaving the queue untouched. -/
def kdbus_kmsg_recv (c : Conn) : RecvResult × Conn :=
  match c.msg_list with
  | [] => (.wouldBlock, c)
  | m :: rest => (.msg m, { c with msg_list := rest })

/-- Modelled from the spec: the enqueue half of kdbus_kmsg_send — append
the envelope at the tail of the destination's inbound queue. -/
def kdbus_kmsg_enqueue (c : Conn) (m : kdbus_kmsg) : Conn :=
  { c with msg_list := c.msg_list ++ [m] }

/-- Enqueue a sequence of envelopes in order. -/
def enqueueAll (c : Conn) (ms : List kdbus_kmsg) : Conn :=
  ms.foldl kdbus_kmsg_enqueue c

/-- Drain a queue by repeated receives, stopping on wouldBlock. -/
def drain : Nat → Conn → List kdbus_kmsg
  | 0, _ => []
  | fuel + 1, c =>
    match kdbus_kmsg_recv c with
    | (.msg m, c') => m :: drain fuel c'
    | (.wouldBlock, _) => []

theorem enqueueAll_msg_list (ms : List kdbus_kmsg) :
    ∀ c : Conn, (enqueueAll c ms).msg_list = c.msg_list ++ ms := by
  induction ms with
  | nil =>
    intro c
    simp [enqueueAll]
  | cons m ms ih =>
    intro c
    rw [enqueueAll, List.foldl_cons]
    have hx := ih (kdbus_kmsg_enqueue c m)
    rw [enqueueAll] at hx
    rw [hx]
    simp [kdbus_kmsg_enqueue]

theorem drain_spec (l : List kdbus_kmsg) : ∀ c : Conn, c.msg_list = l →
    drain l.length c = l := by
  induction l with
  | nil =>
    intro c _
    rfl
  | cons m rest ih =>
    intro c hc
    have hr : kdbus_kmsg_recv c = (.msg m, { c with msg_list := rest }) := by
      unfold kdbus_kmsg_recv
      rw [hc]
    have h1 : drain (rest.length + 1) c =
        m :: drain rest.length { c with msg_list := rest } := by
      rw [drain, hr]
    rw [List.length_cons, h1, ih _ rfl]

/-- C7: receive is strict per-connection FIFO — a non-blocking receive on
an empty queue fails with wouldBlock and leaves the connection unchanged,
and draining the queue after enqueuing a sequence of envelopes returns
exactly that sequence, oldest first, never reordered. -/
theorem kdbus_kmsg_recv_fifo (c : Conn) (ms : List kdbus_kmsg)
    (hempty : c.msg_list = []) :
    kdbus_kmsg_recv c = (.wouldBlock, c) ∧
    drain ms.length (enqueueAll c ms) = ms := by
  constructor
  · unfold kdbus_kmsg_recv
    rw [hempty]
  · have h1 : (enqueueAll c ms).msg_list = ms := by
      rw [enqueueAll_msg_list, hempty, List.nil_append]
    exact drain_spec ms _ h1

/-- Witness for C7: two envelopes enqueued on an empty queue come back in
order, and receive on the empty queue would block. -/
theorem kdbus_kmsg_recv_fifo_witness :
    (⟨7, true, false, [], [], []⟩ : Conn).msg_list = [] ∧
    kdbus_kmsg_recv ⟨7, true, false, [], [], []⟩ =
      (.wouldBlock, ⟨7, true, false, [], [], []⟩) ∧
    drain 2 (enqueueAll ⟨7, true, false, [], [], []⟩ [⟨none, 10⟩, ⟨some 5, 11⟩]) =
      [⟨none, 10⟩, ⟨some 5, 11⟩] := by
  have h := kdbus_kmsg_recv_fifo ⟨7, true, false, [], [], []⟩
    [⟨none, 10⟩, ⟨some 5, 11⟩] (by decide)
  exact ⟨by decide, h.1, h.2⟩

/- ### Reply-deadline lifecycle (deadline of struct kdbus_kmsg,
kdbus_conn_scan_timeout, kdbus_notify_reply_timeout and
kdbus_notify_reply_dead of src/kdbus_internal.h; spec sections 4.2, 4.4
and 8) -/

/-- Events affecting one pending-reply entry: the reply arrives, a
timeout scan runs at an absolute time, or the destination vanishes. -/
inductive ReplyEvent where
  | reply
  | tick (now : Nat)
  | destGone
deriving DecidableEq, Repr

/-- Outcome notification for the original sender. -/
inductive ReplyOutcome where
  | delivered
  | replyTimeout
  | replyDead
deriving DecidableEq, Repr

/-- Modelled from the spec: one step of the pending-reply lifecycle for
an envelope with absolute deadline d.  While the entry is pending
(state none), a reply resolves it silently in favour of delivery, a
timeout scan at or past the deadline resolves it with a replyTimeout
notification (kdbus_conn_scan_timeout feeding
kdbus_notify_reply_timeout), and the destination vanishing resolves it
with replyDead (kdbus_notify_reply_dead); once resolved the entry is
gone and later events emit nothing. -/
def replyStep (d : Nat) (st : Option ReplyOutcome) (ev : ReplyEvent) :
    Option ReplyOutcome × List ReplyOutcome :=
  match st with
  | some o => (some o, [])
  | none =>
    match ev with
    | .reply => (some .delivered, [.delivered])
    | .destGone => (some .replyDead, [.replyDead])
    | .tick now =>
      if d ≤ now then (some .replyTimeout, [.replyTimeout]) else (none, [])

/-- Run the pending-reply lifecycle over an event sequence, collecting
the emitted outcome notifications. -/
def replyRun (d : Nat) : Option ReplyOutcome → List ReplyEvent →
    Option ReplyOutcome × List ReplyOutcome
  | st, [] => (st, [])
  | st, ev :: evs =>
    ((replyRun d (replyStep d st ev).1 evs).1,
     (replyStep d st ev).2 ++ (replyRun d (replyStep d st ev).1 evs).2)

/-- An event that resolves a pending reply with deadline d. -/
def resolves (d : Nat) : ReplyEvent → Prop
  | .reply => True
  | .tick now => d ≤ now
  | .destGone => True

instance (d : Nat) (ev : ReplyEvent) : Decidable (resolves d ev) :=
  match ev with
  | .reply => isTrue trivial
  | .destGone => isTrue trivial
  | .tick now => inferInstanceAs (Decidable (d ≤ now))

theorem replyRun_resolved (d : Nat) (o : ReplyOutcome) (evs : List ReplyEvent) :
    replyRun d (some o) evs = (some o, []) := by
  induction evs with
  | nil => rfl
  | cons ev evs ih =>
    rw [replyRun]
    simp [replyStep, ih]

theorem replyRun_le_one (d : Nat) (evs : List ReplyEvent) :
    (replyRun d none evs).2.length ≤ 1 := by
  induction evs with
  | nil => simp [replyRun]
  | cons ev evs ih =>
    cases ev with
    | reply =>
      rw [replyRun]
      simp [replyStep, replyRun_resolved]
    | destGone =>
      rw [replyRun]
      simp [replyStep, replyRun_resolved]
    | tick now =>
      by_cases hd : d ≤ now
      · rw [replyRun]
        simp [replyStep, hd, replyRun_resolved]
      · rw [replyRun]
        simpa [replyStep, hd] using ih

theorem replyRun_resolving (d : Nat) (evs : List ReplyEvent)
    (h : ∃ ev ∈ evs, resolves d ev) :
    (replyRun d none evs).2.length = 1 := by
  induction evs with
  | nil =>
    obtain ⟨ev, hev, _⟩ := h
    exact absurd hev (List.not_mem_nil _)
  | cons ev evs ih =>
    cases ev with
    | reply =>
      rw [replyRun]
      simp [replyStep, replyRun_resolved]
    | destGone =>
      rw [replyRun]
      simp [replyStep, replyRun_resolved]
    | tick now =>
      by_cases hd : d ≤ now
      · rw [replyRun]
        simp [replyStep, hd, replyRun_resolved]
      · rw [replyRun]
        simp only [replyStep, if_neg hd, List.nil_append]
        apply ih
        obtain ⟨ev', hev', hres⟩ := h
        rcases List.mem_cons.1 hev' with rfl | hev'
        · exact absurd hres hd
        · exact ⟨ev', hev', hres⟩

/-- C8: a pending reply with deadline d emits at most one outcome over
any event sequence, and exactly one outcome — reply delivered,
replyTimeout, or replyDead — as soon as the sequence contains a
resolving event (the reply, a timeout scan at or past the deadline, or
the destination vanishing); never zero, never more than one. -/
theorem reply_deadline_exactly_one (d : Nat) (evs : List ReplyEvent) :
    (replyRun d none evs).2.length ≤ 1 ∧
    ((∃ ev ∈ evs, resolves d ev) → (replyRun d none evs).2.length = 1) :=
  ⟨replyRun_le_one d evs, replyRun_resolving d evs⟩

/-- Witness for C8: deadline 2; a scan at time 1 emits nothing, the scan
at time 3 emits the single replyTimeout. -/
theorem reply_deadline_exactly_one_witness :
    (∃ ev ∈ [ReplyEvent.tick 1, ReplyEvent.tick 3], resolves 2 ev) ∧
    (replyRun 2 none [ReplyEvent.tick 1, ReplyEvent.tick 3]).2.length = 1 :=
  ⟨by decide,
   (reply_deadline_exactly_one 2 [ReplyEvent.tick 1, ReplyEvent.tick 3]).2 (by decide)⟩

/- ### Container disconnect (kdbus_ns_disconnect, kdbus_bus_disconnect,
kdbus_ep_disconnect of src/kdbus_internal.h; connection states of spec
section 4.2) -/

/-- Container layer of a teardown event. -/
inductive Layer where
  | ns
  | bus
  | ep
  | conn
deriving DecidableEq, Repr

/-- Events of a teardown trace: mark = set the disconnected flag of the
object, work = the object's own teardown work (queue flush, device
removal, reference drop). -/
inductive DiscEv where
  | mark (l : Layer) (id : Nat)
  | work (l : Layer) (id : Nat)
deriving DecidableEq, Repr

/-- Modelled from the spec: connection disconnect — the DISCONNECTED mark
is set first, then the queue flush and registry cleanup run. -/
def kdbus_conn_disconnect (c : Conn) : List DiscEv :=
  [.mark .conn c.id, .work .conn c.id]

/-- Modelled from the spec: kdbus_ep_disconnect (declared in
src/kdbus_internal.h, body absent) — set the endpoint's disconnected flag
before any attached connection is torn down. -/
def kdbus_ep_disconnect (e : kdbus_ep) : kdbus_ep × List DiscEv :=
  ({ e with disconnected := true },
   .mark .ep e.id ::
     (e.connection_list.flatMap kdbus_conn_disconnect ++ [.work .ep e.id]))

/-- Modelled from the spec: kdbus_bus_disconnect (declared in
src/kdbus_internal.h, body absent) — set the bus's disconnected flag
before disconnecting its endpoints. -/
def kdbus_bus_disconnect (b : kdbus_bus) : kdbus_bus × List DiscEv :=
  ({ b with disconnected := true,
            ep_list := b.ep_list.map fun e => (kdbus_ep_disconnect e).1 },
   .mark .bus b.id ::
     (b.ep_list.flatMap (fun e => (kdbus_ep_disconnect e).2) ++ [.work .bus b.id]))

/-- Modelled from the spec: kdbus_ns_disconnect (declared in
src/kdbus_internal.h, body absent) — set the namespace's disconnected
flag before disconnecting its buses. -/
def kdbus_ns_disconnect (ns : kdbus_ns) : kdbus_ns × List DiscEv :=
  ({ ns with disconnected := true,
             buses := ns.buses.map fun b => (kdbus_bus_disconnect b).1 },
   .mark .ns ns.id ::
     (ns.buses.flatMap (fun b => (kdbus_bus_disconnect b).2) ++ [.work .ns ns.id]))

/-- Modelled from the spec: kdbus_ns_find (declared in
src/kdbus_internal.h, body absent) — a lookup never finds a namespace
whose disconnected flag is set, so no new reference to a dying namespace
can be taken. -/
def kdbus_ns_find (l : List kdbus_ns) (n : String) : Option kdbus_ns :=
  l.find? fun x => x.name == n && !x.disconnected

/-- Connection states of spec section 4.2. -/
inductive ConnState where
  | UNCONNECTED
  | ACTIVE
  | STARTER
  | DISCONNECTED
deriving DecidableEq, Repr

/-- Commands arriving on a connection's control channel. -/
inductive ConnCmd where
  | hello
  | byebye
  | msgSend
  | msgRecv
  | nameAcquire
  | nameRelease
  | nameList
  | nameQuery
deriving DecidableEq, Repr

/-- Modelled from the spec: command dispatch against the connection state
machine of section 4.2 — DISCONNECTED is terminal and every command on it
fails with connectionGone; hello moves UNCONNECTED to ACTIVE and a second
hello is rejected; byebye disconnects.  The spec leaves non-hello
commands before the handshake unconstrained; they are rejected with
permissionDenied here. -/
def kdbus_conn_dispatch (st : ConnState) (cmd : ConnCmd) : Except Err ConnState :=
  match st with
  | .DISCONNECTED => .error .connectionGone
  | .UNCONNECTED =>
    match cmd with
    | .hello => .ok .ACTIVE
    | _ => .error .permissionDenied
  | .ACTIVE =>
    match cmd with
    | .hello => .error .alreadyExists
    | .byebye => .ok .DISCONNECTED
    | _ => .ok .ACTIVE
  | .STARTER =>
    match cmd with
    | .hello => .error .alreadyExists
    | .byebye => .ok .DISCONNECTED
    | _ => .ok .STARTER

theorem ep_disconnect_idem (e : kdbus_ep) :
    (kdbus_ep_disconnect (kdbus_ep_disconnect e).1).1 = (kdbus_ep_disconnect e).1 := rfl

theorem bus_disconnect_idem (b : kdbus_bus) :
    (kdbus_bus_disconnect (kdbus_bus_disconnect b).1).1 = (kdbus_bus_disconnect b).1 := by
  unfold kdbus_bus_disconnect
  simp [List.map_map]
  intro e _
  rfl

/-- C9: disconnecting a container sets its disconnected mark before any
child teardown begins — the mark heads the trace and every child event
follows it, at every layer — the resulting state has every object in the
tree marked, disconnecting twice changes nothing further (the mark is
irrevocable), a namespace lookup never returns a disconnected namespace,
and every command on a DISCONNECTED connection fails with
connectionGone. -/
theorem disconnect_marks_first (ns : kdbus_ns) :
    (∃ t, (kdbus_ns_disconnect ns).2 = .mark .ns ns.id :: t ∧
       ∀ b ∈ ns.buses, ∀ ev ∈ (kdbus_bus_disconnect b).2, ev ∈ t) ∧
    (∀ b : kdbus_bus, ∃ t, (kdbus_bus_disconnect b).2 = .mark .bus b.id :: t ∧
       ∀ e ∈ b.ep_list, ∀ ev ∈ (kdbus_ep_disconnect e).2, ev ∈ t) ∧
    (∀ e : kdbus_ep, ∃ t, (kdbus_ep_disconnect e).2 = .mark .ep e.id :: t ∧
       ∀ c ∈ e.connection_list, ∀ ev ∈ kdbus_conn_disconnect c, ev ∈ t) ∧
    (∀ c : Conn, kdbus_conn_disconnect c = [.mark .conn c.id, .work .conn c.id]) ∧
    ((kdbus_ns_disconnect ns).1.disconnected = true ∧
       ∀ b ∈ (kdbus_ns_disconnect ns).1.buses, b.disconnected = true ∧
         ∀ e ∈ b.ep_list, e.disconnected = true) ∧
    (kdbus_ns_disconnect (kdbus_ns_disconnect ns).1).1 = (kdbus_ns_disconnect ns).1 ∧
    (∀ l n ns', kdbus_ns_find l n = some ns' → ns'.disconnected = false) ∧
    (∀ cmd, kdbus_conn_dispatch .DISCONNECTED cmd = .error .connectionGone) := by
  refine ⟨?_, ?_, ?_, ?_, ?_, ?_, ?_, ?_⟩
  · refine ⟨_, rfl, ?_⟩
    intro b hb ev hev
    exact List.mem_append_left _ (List.mem_flatMap.2 ⟨b, hb, hev⟩)
  · intro b
    refine ⟨_, rfl, ?_⟩
    intro e he ev hev
    exact List.mem_append_left _ (List.mem_flatMap.2 ⟨e, he, hev⟩)
  · intro e
    refine ⟨_, rfl, ?_⟩
    intro c hc ev hev
    exact List.mem_append_left _ (List.mem_flatMap.2 ⟨c, hc, hev⟩)
  · intro c
    rfl
  · refine ⟨rfl, ?_⟩
    intro b hb
    obtain ⟨b₀, _, rfl⟩ := List.mem_map.1 hb
    refine ⟨rfl, ?_⟩
    intro e he
    obtain ⟨e₀, _, heq⟩ := List.mem_map.1 he
    rw [← heq]
    rfl
  · unfold kdbus_ns_disconnect
    simp only [List.map_map]
    congr 1
    apply List.map_congr_left
    intro b _
    exact bus_disconnect_idem b
  · intro l n ns' hfind
    have hp := List.find?_some hfind
    rw [Bool.and_eq_true] at hp
    simpa using hp.2
  · intro cmd
    rfl

/-- Witness for C9: a concrete live namespace is found by name, and its
disconnected flag is indeed unset. -/
theorem disconnect_marks_first_witness :
    kdbus_ns_find [⟨"a", 1, false, []⟩] "a" = some ⟨"a", 1, false, []⟩ ∧
    (⟨"a", 1, false, []⟩ : kdbus_ns).disconnected = false :=
  ⟨by decide,
   (disconnect_marks_first ⟨"a", 1, false, []⟩).2.2.2.2.2.2.1
     [⟨"a", 1, false, []⟩] "a" ⟨"a", 1, false, []⟩ (by decide)⟩

/- ### Starter references (struct kdbus_name_entry of src/names.h,
struct kdbus_conn of src/kdbus_internal.h) -/

/-- C10: a name-registry entry carries an optional starter-connection
reference separate from its owner reference, and a connection carries a
starter flag independent of its active flag: every active/starter flag
combination is representable, an entry can hold a starter while entirely
unowned, and an entry's starter can differ from its owner. -/
theorem starter_reference_independent :
    (∀ a s : Bool, ∃ c : Conn, c.active = a ∧ c.starter = s) ∧
    (∃ (e : kdbus_name_entry) (sc : ConnId), e.starter = some sc ∧ e.conn = none) ∧
    (∃ (e : kdbus_name_entry) (sc oc : ConnId),
        e.starter = some sc ∧ e.conn = some oc ∧ sc ≠ oc) := by
  refine ⟨?_, ?_, ?_⟩
  · intro a s
    exact ⟨⟨0, a, s, [], [], []⟩, rfl, rfl⟩
  · exact ⟨⟨"a.b", ⟨false, false⟩, [], none, some 3⟩, 3, rfl, rfl⟩
  · exact ⟨⟨"a.b", ⟨false, false⟩, [], some 2, some 3⟩, 3, 2, rfl, rfl, by decide⟩

end Kdbus
